import Mathlib

/-!
Verification development for FINE's `expansionModules/transformationPath.py`
(myopic transformation-path optimization: `optimizeMyopic` and `getStock`).

The Python module is shallowly embedded below.  Components, modeling domains
and the energy system model become Lean structures; pandas Series become
association lists from location to integer value; Python dictionaries become
association lists keyed by `String`; a Python exception (KeyError, failed
registration) is modelled by `Option`/`Except` with `none`/`.error` as the
raised exception.  Functions of the surrounding FINE package that are not part
of this file's source (`utils.checkAndSetTimeHorizon`, `utils.preprocess2dimData`,
`EnergySystemModel.add`, the CO2-target checks) are modelled from the spec and
carry a doc comment saying so.
-/

/-! ## Series: pandas Series over locations -/

abbrev Loc := String

/-- A pandas Series indexed by location, as an association list. -/
abbrev Series := List (Loc × Int)

/-- `series - n` (pandas broadcasts scalar subtraction over all entries). -/
def Series.subScalar (s : Series) (n : Int) : Series :=
  s.map (fun p => (p.1, p.2 - n))

/-- Python `any(series <= 0)`: true iff some entry's value is `≤ 0`. -/
def Series.anyLE0 (s : Series) : Bool :=
  s.any (fun p => decide (p.2 ≤ 0))

/-- `pd.Series(0, index=locations)`: the all-zero series over given locations. -/
def zeroSeries (locs : List Loc) : Series :=
  locs.map (fun l => (l, (0 : Int)))

/-- Pointwise comparison of two series: same locations in the same order and
every value of the first is `≤` the corresponding value of the second. -/
def Series.leB : Series → Series → Bool
  | [], [] => true
  | p :: ps, q :: qs => p.1 == q.1 && decide (p.2 ≤ q.2) && Series.leB ps qs
  | _, _ => false

/-! ## Substring test: Python `'stock' in name` -/

/-- `leadsWith p l` is true iff `p` is an initial segment of `l`. -/
def leadsWith : List Char → List Char → Bool
  | [], _ => true
  | _ :: _, [] => false
  | p :: ps, c :: cs => p == c && leadsWith ps cs

/-- `containsSub pat l` is true iff `pat` occurs contiguously inside `l`. -/
def containsSub (pat : List Char) : List Char → Bool
  | [] => leadsWith pat []
  | c :: cs => leadsWith pat (c :: cs) || containsSub pat cs

/-- Python's `pat in s` membership test on strings. -/
def strContains (s pat : String) : Bool :=
  containsSub pat.data s.data

/-! ## Optimal capacity values -/

/-- A two-dimensional (location × location) optimal-value table; `none` entries
are pandas NaN ("not applicable"). -/
abbrev DataFrame := List (Loc × List (Loc × Option Int))

/-- One component's slice of the optimal-capacity result table: pandas returns
a `DataFrame` for two-dimensional components and a `Series` otherwise. -/
inductive ValEntry where
  | oneDim (s : Series)
  | twoDim (df : DataFrame)
deriving DecidableEq

/-- `DataFrame.fillna(value=v)`: replace every missing entry by `v`. -/
def DataFrame.fillna (v : Int) (df : DataFrame) : List (Loc × Series) :=
  df.map (fun r => (r.1, r.2.map (fun q => (q.1, q.2.getD v))))

/-- Modelled from the spec: `FINE.utils.preprocess2dimData` is imported from the
FINE package and is not part of this file's source.  Per the spec it
shape-normalizes a two-dimensional value table (whose missing entries were
already filled with the sentinel `-1`) into a single series; we key the
flattened series by the location pair. -/
def preprocess2dimData (df : List (Loc × Series)) : Series :=
  df.foldr (fun r acc => r.2.map (fun q => (r.1 ++ "_" ++ q.1, q.2)) ++ acc) []

/-! ## Components, modeling domains, energy system model -/

/-- A FINE component, restricted to the attributes `getStock` reads or writes.
`modelingClass` records which modeling domain the component belongs to (in
FINE this is determined by the component's Python class); `esM.add` registers
a component into the domain named by its class. -/
structure Component where
  name : String
  modelingClass : String
  technicalLifetime : Series
  lifetime : Series
  capacityFix : Option Series
  capacityMax : Option Series
  capacityMin : Option Series
  sharedPotentialID : Option String
deriving DecidableEq

/-- One modeling domain: its `componentsDict` and the result of
`getOptimalValues('capacityVariablesOptimum')['values']` from the last
optimization run (`none` is the "no result" marker). -/
structure CompModel where
  componentsDict : List (String × Component)
  optimalCapacityValues : Option (List (String × ValEntry))
deriving DecidableEq

/-- The energy system model, restricted to what `transformationPath.py` uses:
the per-domain component collections, the `locations` attribute, and whether a
CO2-accounting sink component is present (used only by the spec-modelled
CO2-target checks). -/
structure EsM where
  componentModelingDict : List (String × CompModel)
  locations : List Loc
  hasCO2SinkComponent : Bool
deriving DecidableEq

/-- Python dict lookup on an association list (first match wins). -/
def alookup {β : Type} : List (String × β) → String → Option β
  | [], _ => none
  | p :: ps, k => if p.1 = k then some p.2 else alookup ps k

/-- Replace the value at key `k` by `f` of it (no effect if `k` is absent). -/
def aupdateF {β : Type} (k : String) (f : β → β) : List (String × β) → List (String × β)
  | [] => []
  | p :: ps => if p.1 = k then (p.1, f p.2) :: ps else p :: aupdateF k f ps

/-- The list of modeling-domain keys, `esM.componentModelingDict.keys()`. -/
def domKeys (e : EsM) : List String :=
  e.componentModelingDict.map Prod.fst

/-- `esM.componentModelingDict[d].componentsDict[k]`, with `none` for KeyError. -/
def EsM.lookupComp (e : EsM) (d k : String) : Option Component :=
  match alookup e.componentModelingDict d with
  | none => none
  | some dom => alookup dom.componentsDict k

/-- The domain's `getOptimalValues('capacityVariablesOptimum')['values']`;
outer `none` means the domain key is absent, inner `none` is the "no result"
marker. -/
def EsM.tableOf (e : EsM) (d : String) : Option (Option (List (String × ValEntry))) :=
  (alookup e.componentModelingDict d).map (fun dm => dm.optimalCapacityValues)

/-- Whether some domain already holds a component registered under key `k`. -/
def EsM.keyExists (e : EsM) (k : String) : Bool :=
  e.componentModelingDict.any (fun p => (alookup p.2.componentsDict k).isSome)

/-- In-place mutation of the component stored at `componentsDict[k]` of
domain `d`. -/
def EsM.updateComp (e : EsM) (d k : String) (c : Component) : EsM :=
  { e with componentModelingDict :=
      (aupdateF d (fun dom => { dom with componentsDict := aupdateF k (fun _ => c) dom.componentsDict })
        e.componentModelingDict) }

/-- Modelled from the spec: `esM.add` is `EnergySystemModel.add` of the FINE
package and is not part of this file's source.  Per the spec (§6) it registers
the new component into its modeling domain and fails if the name already
exists; registration into a modeling domain that is not part of the model also
fails. -/
def EsM.add (e : EsM) (sc : Component) : Option EsM :=
  if e.keyExists sc.name then none
  else if (alookup e.componentModelingDict sc.modelingClass).isSome then
    some { e with componentModelingDict :=
      (aupdateF sc.modelingClass
        (fun dom => { dom with componentsDict := (sc.name, sc) :: dom.componentsDict })
        e.componentModelingDict) }
  else none

/-- All entries of every `componentsDict` carry the modeling class of the
domain that holds them (true of every FINE model, where the dictionaries are
populated by `add` itself). -/
def classConsistent (e : EsM) : Bool :=
  e.componentModelingDict.all
    (fun p => p.2.componentsDict.all (fun q => q.2.modelingClass == p.1))

/-! ## getStock -/

/-- `compValues.index.get_level_values(0).unique()`: the outer-index keys in
order of first appearance, without duplicates.  `seen` accumulates the keys
already emitted. -/
def dedupFirst : List String → List String → List String
  | _, [] => []
  | seen, x :: xs => if x ∈ seen then dedupFirst seen xs else x :: dedupFirst (x :: seen) xs

/-- The distinct component names appearing in a result table's outer index. -/
def uniqueKeys (tbl : List (String × ValEntry)) : List String :=
  dedupFirst [] (tbl.map Prod.fst)

/-- `k` appears in no domain's optimal-capacity result table. -/
def keyNotInAnyTable (e : EsM) (k : String) : Bool :=
  e.componentModelingDict.all (fun p =>
    match p.2.optimalCapacityValues with
    | none => true
    | some tbl₀ => decide (k ∉ uniqueKeys tbl₀))

/-- Among the domains whose optimal-capacity result table mentions `k`,
only `mdl` occurs. -/
def keyOnlyInTableOf (e : EsM) (mdl k : String) : Bool :=
  e.componentModelingDict.all (fun p =>
    match p.2.optimalCapacityValues with
    | none => true
    | some tbl₀ => decide (k ∈ uniqueKeys tbl₀ → p.1 = mdl))

/-- Lines 137-143 of the source: the in-place mutation applied to a component
already marked as stock — decrement `lifetime` by `nbOfRepresentedYears`, and
if any entry of the result is `≤ 0`, zero out `capacityFix`, `capacityMax`,
`capacityMin` over the model's locations and clear `sharedPotentialID`. -/
def stockUpdate (c : Component) (n : Int) (locs : List Loc) : Component :=
  if (c.lifetime.subScalar n).anyLE0 then
    { c with lifetime := c.lifetime.subScalar n,
             capacityFix := some (zeroSeries locs),
             capacityMax := some (zeroSeries locs),
             capacityMin := some (zeroSeries locs),
             sharedPotentialID := none }
  else { c with lifetime := c.lifetime.subScalar n }

/-- Lines 119-135 of the source: the new stock component — a deep copy of the
original renamed to `stockName`, with `lifetime` set to
`technicalLifetime - nbOfRepresentedYears`, and `capacityFix` populated from
the optimized values `v` when the original had none. -/
def mkStockComp (c : Component) (stockName : String) (n : Int) (v : ValEntry) : Component :=
  if c.capacityFix.isNone then
    match v with
    | ValEntry.twoDim df =>
      { c with name := stockName, lifetime := c.technicalLifetime.subScalar n,
               capacityFix := some (preprocess2dimData (DataFrame.fillna (-1) df)) }
    | ValEntry.oneDim s =>
      { c with name := stockName, lifetime := c.technicalLifetime.subScalar n,
               capacityFix := some s }
  else { c with name := stockName, lifetime := c.technicalLifetime.subScalar n }

/-- The body of `getStock`'s inner loop (lines 117-143) for one component name
`comp` of domain `mdl`'s result table `tbl`; `none` models a raised KeyError or
a failed registration. -/
def processComp (y n : Int) (mdl : String) (tbl : List (String × ValEntry)) (comp : String)
    (e : EsM) : Option EsM :=
  match e.lookupComp mdl comp with
  | none => none
  | some c =>
    if strContains c.name "stock" = false then
      if (c.technicalLifetime.subScalar n).anyLE0 then some e
      else
        match alookup tbl comp with
        | none => none
        | some v => e.add (mkStockComp c (comp ++ "_stock_" ++ toString y) n v)
    else
      some (e.updateComp mdl comp (stockUpdate c n e.locations))

/-- The inner loop over the distinct component names of one result table. -/
def processComps (y n : Int) (mdl : String) (tbl : List (String × ValEntry)) :
    List String → EsM → Option EsM
  | [], e => some e
  | comp :: rest, e =>
    (processComp y n mdl tbl comp e).bind (fun e1 => processComps y n mdl tbl rest e1)

/-- One iteration of `getStock`'s outer loop (lines 114-116): fetch the
domain's optimal-capacity table and process its component names; a domain with
the "no result" marker is skipped. -/
def processDomain (y n : Int) (mdl : String) (e : EsM) : Option EsM :=
  match alookup e.componentModelingDict mdl with
  | none => none
  | some dom =>
    match dom.optimalCapacityValues with
    | none => some e
    | some tbl => processComps y n mdl tbl (uniqueKeys tbl) e

/-- The outer loop over the modeling-domain keys. -/
def processDomains (y n : Int) : List String → EsM → Option EsM
  | [], e => some e
  | mdl :: rest, e =>
    (processDomain y n mdl e).bind (fun e1 => processDomains y n rest e1)

/-- `getStock(esM, mileStoneYear, nbOfRepresentedYears)` (lines 100-144). -/
def getStock (e : EsM) (y n : Int) : Option EsM :=
  processDomains y n (domKeys e) e

/-! ## Horizon planning and the myopic loop -/

/-- Modelled from the spec: `utils.checkAndSetTimeHorizon` is imported from the
FINE package and is not part of this file's source.  Per the spec (§4.1) it
resolves a consistent pair `(nbOfSteps, nbOfRepresentedYears)` such that
`startYear + nbOfSteps * nbOfRepresentedYears == endYear` whenever `endYear`
is given, with at least two total runs (`nbOfSteps ≥ 1`) and a positive number
of represented years per step, and raises a `ConfigurationError` (the `.error`
case) on under-specified or inconsistent input. -/
def checkAndSetTimeHorizon (startYear : Int) (endYear nbOfSteps nbOfRepresentedYears : Option Int) :
    Except String (Int × Int) :=
  match endYear, nbOfSteps, nbOfRepresentedYears with
  | some e, some s, some r =>
    if startYear + s * r = e ∧ 1 ≤ s ∧ 1 ≤ r then Except.ok (s, r)
    else Except.error "ConfigurationError: inconsistent time horizon"
  | some e, some s, none =>
    if 1 ≤ s ∧ (e - startYear) % s = 0 ∧ 1 ≤ (e - startYear) / s then
      Except.ok (s, (e - startYear) / s)
    else Except.error "ConfigurationError: inconsistent time horizon"
  | some e, none, some r =>
    if 1 ≤ r ∧ (e - startYear) % r = 0 ∧ 1 ≤ (e - startYear) / r then
      Except.ok ((e - startYear) / r, r)
    else Except.error "ConfigurationError: inconsistent time horizon"
  | none, some s, some r =>
    if 1 ≤ s ∧ 1 ≤ r then Except.ok (s, r)
    else Except.error "ConfigurationError: inconsistent time horizon"
  | _, _, _ => Except.error "ConfigurationError: under-specified time horizon"

/-- Modelled from the spec: `utils.checkSinkCompCO2toEnvironment` is imported
from the FINE package and is not part of this file's source.  Per the spec it
raises when CO2 reduction targets are supplied but no CO2-accounting sink
component is present in the model. -/
def checkSinkCompCO2toEnvironment (e : EsM) (targets : Option (List Int)) : Except String Unit :=
  if targets.isSome && !e.hasCO2SinkComponent then
    Except.error "ConfigurationError: CO2 sink component missing"
  else Except.ok ()

/-- Modelled from the spec: `utils.checkCO2ReductionTargets` is imported from
the FINE package and is not part of this file's source.  Per the spec (§4.1)
it raises when the supplied target list's length does not equal the number of
steps. -/
def checkCO2ReductionTargets (targets : Option (List Int)) (nbOfSteps : Int) : Except String Unit :=
  match targets with
  | none => Except.ok ()
  | some l => if (l.length : Int) = nbOfSteps then Except.ok ()
              else Except.error "ConfigurationError: CO2 target list length mismatch"

/-- `copy.deepcopy` on the model: in this pure embedding a value is already an
independent snapshot, so the deep copy is the identity; the call site marks
where the source takes its snapshot. -/
def deepcopy (e : EsM) : EsM := e

/-- Python `dict.update({k: v})`: replace the entry at `k`, else append it. -/
def dictUpdate (k : String) (v : EsM) : List (String × EsM) → List (String × EsM)
  | [] => [(k, v)]
  | p :: ps => if p.1 = k then (k, v) :: ps else p :: dictUpdate k v ps

/-- The loop of `optimizeMyopic` (lines 82-96).  `opt` abstracts the external
per-step calls that are not part of this file's source
(`utils.setNewCO2ReductionTarget`, `esM.cluster`, `esM.optimize`,
`standardIO.writeOptimizationOutputToExcel`): it receives the step index and
the log file name the loop computes, and returns the solved model.  The first
argument counts the remaining iterations; `step` is the current index; the
`String` argument is the current value of the `logFileName` variable, which
the loop overwrites before any use; `acc` is `myopicResults` and `tr` records
the log file name passed to each `optimize` call. -/
def myopicLoop (opt : Nat → String → EsM → EsM) (startYear r : Int) :
    Nat → Nat → String → EsM → List (String × EsM) → List String →
    Option (List (String × EsM) × List String)
  | 0, _, _, _, acc, tr => some (acc, tr)
  | Nat.succ m, step, _, esM, acc, tr =>
    let y := startYear + (step : Int) * r
    let lf := "log_" ++ toString y
    let esM1 := opt step lf esM
    let acc1 := dictUpdate ("ESM_" ++ toString y) (deepcopy esM1) acc
    (getStock esM1 y r).bind (fun esM2 =>
      myopicLoop opt startYear r m (step + 1) lf esM2 acc1 (tr ++ [lf]))

/-- The error taxonomy of a myopic campaign: a `ConfigurationError` raised by
the pre-loop checks, or a failure raised inside a step. -/
inductive MyopicError where
  | configuration (msg : String)
  | stepFailure
deriving DecidableEq

/-- `optimizeMyopic` (lines 12-98): resolve the horizon, validate the CO2
targets, then run `nbOfSteps + 1` optimization steps, snapshotting a deep copy
of the solved model under `'ESM_' + str(mileStoneYear)` after each solve and
rolling the stock forward with `getStock`. -/
def optimizeMyopic (opt : Nat → String → EsM → EsM) (esM : EsM) (startYear : Int)
    (endYear nbOfSteps nbOfRepresentedYears : Option Int)
    (CO2ReductionTargets : Option (List Int)) (logFileName : String) :
    Except MyopicError (List (String × EsM) × List String) :=
  match checkAndSetTimeHorizon startYear endYear nbOfSteps nbOfRepresentedYears with
  | Except.error m => Except.error (MyopicError.configuration m)
  | Except.ok (s, r) =>
    match checkSinkCompCO2toEnvironment esM CO2ReductionTargets with
    | Except.error m => Except.error (MyopicError.configuration m)
    | Except.ok _ =>
      match checkCO2ReductionTargets CO2ReductionTargets s with
      | Except.error m => Except.error (MyopicError.configuration m)
      | Except.ok _ =>
        match myopicLoop opt startYear r (s.toNat + 1) 0 logFileName esM [] [] with
        | none => Except.error MyopicError.stepFailure
        | some pr => Except.ok pr

/-- The milestone-year snapshot keys `'ESM_' + str(startYear + k*r)` generated
by steps `step, step+1, …, step+m-1`. -/
def genKeys (startYear r : Int) (step m : Nat) : List String :=
  (List.range m).map (fun j => "ESM_" ++ toString (startYear + ((step + j : Nat) : Int) * r))

/-- The model state entering relative step `j` when the loop starts at absolute
step `step` with model `e`: each step solves, then rolls the stock. -/
def chainState (opt : Nat → String → EsM → EsM) (startYear r : Int) :
    Nat → EsM → Nat → Option EsM
  | _, e, 0 => some e
  | step, e, Nat.succ j =>
    let y := startYear + (step : Int) * r
    (getStock (opt step ("log_" ++ toString y) e) y r).bind
      (fun e2 => chainState opt startYear r (step + 1) e2 j)

/-! ## Concrete example models -/

/-- An original converter with a 15-year technical lifetime at one location. -/
def cW1 : Component := ⟨"conv", "d1", [("L1", 15)], [("L1", 15)], none, none, none, none⟩

def tblW1 : List (String × ValEntry) := [("conv", ValEntry.oneDim [("L1", 5)])]

def domW1 : CompModel := ⟨[("conv", cW1)], some tblW1⟩

def eW1 : EsM := ⟨[("d1", domW1)], ["L1"], false⟩

/-- The stock component rolled out of `cW1` at milestone year 2020. -/
def scW1 : Component :=
  ⟨"conv_stock_2020", "d1", [("L1", 15)], [("L1", 5)], some [("L1", 5)], none, none, none⟩

def domW1x : CompModel := ⟨[("conv_stock_2020", scW1), ("conv", cW1)], some tblW1⟩

def eW1x : EsM := ⟨[("d1", domW1x)], ["L1"], false⟩

/-- An existing stock component with 5 remaining lifetime years. -/
def cW2 : Component :=
  ⟨"old_stock_2010", "d1", [("L1", 15)], [("L1", 5)], some [("L1", 3)], some [("L1", 9)],
    some [("L1", 0)], some "grp"⟩

def tblW2 : List (String × ValEntry) := [("old_stock_2010", ValEntry.oneDim [("L1", 3)])]

def domW2 : CompModel := ⟨[("old_stock_2010", cW2)], some tblW2⟩

def eW2 : EsM := ⟨[("d1", domW2)], ["L1"], false⟩

/-- `cW2` after one 10-year roll: lifetime `-5`, capacities zeroed, shared
potential cleared. -/
def cW2x : Component :=
  ⟨"old_stock_2010", "d1", [("L1", 15)], [("L1", -5)], some [("L1", 0)], some [("L1", 0)],
    some [("L1", 0)], none⟩

def domW2x : CompModel := ⟨[("old_stock_2010", cW2x)], some tblW2⟩

def eW2x : EsM := ⟨[("d1", domW2x)], ["L1"], false⟩

/-- An original component whose name happens to contain the substring
`stock`. -/
def cW3 : Component := ⟨"Feedstock", "d1", [("L1", 40)], [("L1", 40)], none, none, none, none⟩

def tblW3 : List (String × ValEntry) := [("Feedstock", ValEntry.oneDim [("L1", 7)])]

def domW3 : CompModel := ⟨[("Feedstock", cW3)], some tblW3⟩

def eW3 : EsM := ⟨[("d1", domW3)], ["L1"], false⟩

def cW3x : Component := ⟨"Feedstock", "d1", [("L1", 40)], [("L1", 30)], none, none, none, none⟩

def domW3x : CompModel := ⟨[("Feedstock", cW3x)], some tblW3⟩

def eW3x : EsM := ⟨[("d1", domW3x)], ["L1"], false⟩

/-- A domain whose optimal-capacity query returned the no-result marker. -/
def cW4 : Component := ⟨"plant", "d0", [("L1", 20)], [("L1", 20)], none, none, none, none⟩

def domW4 : CompModel := ⟨[("plant", cW4)], none⟩

def eW4 : EsM := ⟨[("d0", domW4)], ["L1"], false⟩

/-- A two-location original whose candidate stock lifetime is positive at
`L1` (15 - 10 = 5) but negative at `L2` (5 - 10 = -5). -/
def cC3 : Component :=
  ⟨"conv", "d1", [("L1", 15), ("L2", 5)], [("L1", 15), ("L2", 5)], none, none, none, none⟩

def tblC3 : List (String × ValEntry) :=
  [("conv", ValEntry.oneDim [("L1", 5), ("L2", 5)])]

def domC3 : CompModel := ⟨[("conv", cC3)], some tblC3⟩

def eC3 : EsM := ⟨[("d1", domC3)], ["L1", "L2"], false⟩

/-- The empty model, and a solver stub that leaves the model unchanged. -/
def eW0 : EsM := ⟨[], [], false⟩

def idOpt : Nat → String → EsM → EsM := fun _ _ e => e

/-! ## Association-list lemmas -/

theorem alookup_mem {β : Type} {l : List (String × β)} {k : String} {v : β}
    (h : alookup l k = some v) : (k, v) ∈ l := by
  induction l with
  | nil => simp [alookup] at h
  | cons p ps ih =>
    simp only [alookup] at h
    split at h
    · rename_i hp
      cases h
      simp [← hp]
    · exact List.mem_cons_of_mem _ (ih h)

theorem mem_fst_of_alookup {β : Type} {l : List (String × β)} {k : String} {v : β}
    (h : alookup l k = some v) : k ∈ l.map Prod.fst := by
  have := alookup_mem h
  exact List.mem_map_of_mem Prod.fst this

theorem alookup_none_of_not_mem {β : Type} {l : List (String × β)} {k : String}
    (h : k ∉ l.map Prod.fst) : alookup l k = none := by
  induction l with
  | nil => rfl
  | cons p ps ih =>
    simp only [List.map_cons, List.mem_cons] at h
    push_neg at h
    simp only [alookup]
    rw [if_neg (fun hp => h.1 hp.symm)]
    exact ih h.2

theorem isSome_alookup_of_mem_fst {β : Type} {l : List (String × β)} {k : String}
    (h : k ∈ l.map Prod.fst) : (alookup l k).isSome := by
  by_contra hc
  rw [Option.not_isSome_iff_eq_none] at hc
  induction l with
  | nil => simp at h
  | cons p ps ih =>
    simp only [alookup] at hc
    split at hc
    · cases hc
    · rename_i hp
      simp only [List.map_cons, List.mem_cons] at h
      rcases h with h | h
      · exact hp h.symm
      · exact ih h hc

theorem alookup_aupdateF_self {β : Type} (l : List (String × β)) (k : String) (f : β → β) :
    alookup (aupdateF k f l) k = (alookup l k).map f := by
  induction l with
  | nil => rfl
  | cons p ps ih =>
    simp only [aupdateF, alookup]
    split
    · rename_i hp
      simp [alookup, hp]
    · rename_i hp
      simp [alookup, hp, ih]

theorem alookup_aupdateF_ne {β : Type} (l : List (String × β)) {k k' : String} (f : β → β)
    (h : k' ≠ k) : alookup (aupdateF k f l) k' = alookup l k' := by
  induction l with
  | nil => rfl
  | cons p ps ih =>
    simp only [aupdateF]
    split
    · rename_i hp
      simp only [alookup]
      rw [if_neg (by rw [hp]; exact fun he => h he.symm),
          if_neg (by rw [hp]; exact fun he => h he.symm)]
    · simp only [alookup]
      split
      · rfl
      · exact ih

theorem map_fst_aupdateF {β : Type} (l : List (String × β)) (k : String) (f : β → β) :
    (aupdateF k f l).map Prod.fst = l.map Prod.fst := by
  induction l with
  | nil => rfl
  | cons p ps ih =>
    simp only [aupdateF]
    split
    · simp
    · simp [ih]

theorem mem_aupdateF {β : Type} {l : List (String × β)} {k : String} {f : β → β} {p : String × β}
    (h : p ∈ aupdateF k f l) : p ∈ l ∨ ∃ v, (k, v) ∈ l ∧ p = (k, f v) := by
  induction l with
  | nil => simp [aupdateF] at h
  | cons q qs ih =>
    simp only [aupdateF] at h
    split at h
    · rename_i hq
      rcases List.mem_cons.mp h with h | h
      · right
        exact ⟨q.2, by simp [← hq, h]⟩
      · exact Or.inl (List.mem_cons_of_mem _ h)
    · rcases List.mem_cons.mp h with h | h
      · exact Or.inl (h ▸ List.mem_cons_self _ _)
      · rcases ih h with h | ⟨v, hv, hp⟩
        · exact Or.inl (List.mem_cons_of_mem _ h)
        · exact Or.inr ⟨v, List.mem_cons_of_mem _ hv, hp⟩

/-! ## uniqueKeys lemmas -/

theorem mem_dedupFirst {seen l : List String} {x : String} :
    x ∈ dedupFirst seen l ↔ x ∈ l ∧ x ∉ seen := by
  induction l generalizing seen with
  | nil => simp [dedupFirst]
  | cons y ys ih =>
    simp only [dedupFirst]
    split
    · rename_i hy
      rw [ih]
      constructor
      · rintro ⟨h1, h2⟩
        exact ⟨List.mem_cons_of_mem _ h1, h2⟩
      · rintro ⟨h1, h2⟩
        rcases List.mem_cons.mp h1 with h | h
        · exact absurd (h ▸ hy) h2
        · exact ⟨h, h2⟩
    · rename_i hy
      constructor
      · intro h
        rcases List.mem_cons.mp h with h | h
        · exact ⟨h ▸ List.mem_cons_self _ _, h ▸ hy⟩
        · rcases ih.mp h with ⟨h1, h2⟩
          simp only [List.mem_cons] at h2
          push_neg at h2
          exact ⟨List.mem_cons_of_mem _ h1, h2.2⟩
      · rintro ⟨h1, h2⟩
        rcases List.mem_cons.mp h1 with h | h
        · exact h ▸ List.mem_cons_self _ _
        · by_cases hxy : x = y
          · exact hxy ▸ List.mem_cons_self _ _
          · exact List.mem_cons_of_mem _ (ih.mpr ⟨h, by simp [h2, hxy]⟩)

theorem mem_uniqueKeys {tbl : List (String × ValEntry)} {x : String} :
    x ∈ uniqueKeys tbl ↔ x ∈ tbl.map Prod.fst := by
  rw [uniqueKeys, mem_dedupFirst]
  simp

theorem nodup_dedupFirst (seen l : List String) : (dedupFirst seen l).Nodup := by
  induction l generalizing seen with
  | nil => exact List.nodup_nil
  | cons y ys ih =>
    simp only [dedupFirst]
    split
    · exact ih seen
    · refine List.Nodup.cons ?_ (ih (y :: seen))
      intro hy
      exact (mem_dedupFirst.mp hy).2 (List.mem_cons_self _ _)

theorem nodup_uniqueKeys (tbl : List (String × ValEntry)) : (uniqueKeys tbl).Nodup :=
  nodup_dedupFirst [] _

/-! ## Series lemmas -/

theorem leB_refl (s : Series) : Series.leB s s = true := by
  induction s with
  | nil => rfl
  | cons p ps ih => simp [Series.leB, ih]

theorem leB_trans {s t u : Series} (h1 : Series.leB s t = true) (h2 : Series.leB t u = true) :
    Series.leB s u = true := by
  induction s generalizing t u with
  | nil =>
    cases t with
    | nil => cases u with
      | nil => rfl
      | cons q qs => simp [Series.leB] at h2
    | cons q qs => simp [Series.leB] at h1
  | cons p ps ih =>
    cases t with
    | nil => simp [Series.leB] at h1
    | cons q qs =>
      cases u with
      | nil => simp [Series.leB] at h2
      | cons w ws =>
        simp only [Series.leB, Bool.and_eq_true, beq_iff_eq, decide_eq_true_eq] at h1 h2 ⊢
        exact ⟨⟨h1.1.1.trans h2.1.1, le_trans h1.1.2 h2.1.2⟩, ih h1.2 h2.2⟩

theorem leB_subScalar {s : Series} {n : Int} (hn : 0 ≤ n) :
    Series.leB (s.subScalar n) s = true := by
  induction s with
  | nil => rfl
  | cons p ps ih =>
    simp only [Series.subScalar, List.map_cons, Series.leB, Bool.and_eq_true, beq_iff_eq,
      decide_eq_true_eq]
    exact ⟨⟨by simp, by omega⟩, ih⟩

/-! ## String lemmas -/

theorem strAppend_right_cancel {a b s : String} (h : a ++ s = b ++ s) : a = b := by
  apply String.ext
  have hd : a.data ++ s.data = b.data ++ s.data := by
    rw [← String.data_append, ← String.data_append, h]
  exact List.append_left_injective s.data hd

/-! ## keyExists, updateComp, add characterizations -/

theorem keyExists_false_lookup {e : EsM} {k : String} (h : e.keyExists k = false) :
    ∀ d, e.lookupComp d k = none := by
  intro d
  unfold EsM.lookupComp
  cases hd : alookup e.componentModelingDict d with
  | none => rfl
  | some dom =>
    have hmem := alookup_mem hd
    unfold EsM.keyExists at h
    rw [List.any_eq_false] at h
    have := h _ hmem
    simpa [Option.not_isSome_iff_eq_none] using this

theorem updateComp_locations (e : EsM) (d k : String) (c : Component) :
    (e.updateComp d k c).locations = e.locations := rfl

theorem updateComp_domKeys (e : EsM) (d k : String) (c : Component) :
    domKeys (e.updateComp d k c) = domKeys e :=
  map_fst_aupdateF _ _ _

theorem updateComp_tableOf (e : EsM) (d k : String) (c : Component) (d' : String) :
    (e.updateComp d k c).tableOf d' = e.tableOf d' := by
  unfold EsM.tableOf EsM.updateComp
  by_cases hd : d' = d
  · subst hd
    rw [alookup_aupdateF_self, Option.map_map]
    rfl
  · rw [alookup_aupdateF_ne _ _ hd]

theorem lookupComp_def (e : EsM) (d k : String) :
    e.lookupComp d k =
      (alookup e.componentModelingDict d).bind (fun dom => alookup dom.componentsDict k) := by
  unfold EsM.lookupComp
  cases alookup e.componentModelingDict d <;> rfl

theorem updateComp_dict (e : EsM) (d k : String) (c : Component) :
    (e.updateComp d k c).componentModelingDict =
      aupdateF d (fun dom => { dom with componentsDict := aupdateF k (fun _ => c) dom.componentsDict })
        e.componentModelingDict := rfl

theorem updateComp_lookup_self {e : EsM} {d k : String} {c₀ : Component} (c : Component)
    (h : e.lookupComp d k = some c₀) : (e.updateComp d k c).lookupComp d k = some c := by
  rw [lookupComp_def] at h
  rw [lookupComp_def, updateComp_dict, alookup_aupdateF_self]
  cases hdm : alookup e.componentModelingDict d with
  | none => rw [hdm] at h; cases h
  | some dom =>
    rw [hdm] at h
    simp only [Option.some_bind] at h
    simp only [Option.map_some', Option.some_bind, alookup_aupdateF_self, h, Option.map_some']

theorem updateComp_lookup_other {e : EsM} (d k : String) (c : Component) {d' k' : String}
    (h : d' ≠ d ∨ k' ≠ k) : (e.updateComp d k c).lookupComp d' k' = e.lookupComp d' k' := by
  rw [lookupComp_def, lookupComp_def, updateComp_dict]
  by_cases hd : d' = d
  · subst hd
    rcases h with h | h
    · exact absurd rfl h
    · rw [alookup_aupdateF_self]
      cases hdm : alookup e.componentModelingDict d' with
      | none => rfl
      | some dom =>
        simp only [Option.map_some', Option.some_bind]
        exact alookup_aupdateF_ne _ _ h
  · rw [alookup_aupdateF_ne _ _ hd]

theorem updateComp_lookup_none {e : EsM} (d k : String) (c : Component) {d' k' : String}
    (h : e.lookupComp d' k' = none) : (e.updateComp d k c).lookupComp d' k' = none := by
  by_cases hdk : d' = d ∧ k' = k
  · rcases hdk with ⟨hd, hk⟩
    subst hd; subst hk
    rw [lookupComp_def] at h
    rw [lookupComp_def, updateComp_dict, alookup_aupdateF_self]
    cases hdm : alookup e.componentModelingDict d' with
    | none => rfl
    | some dom =>
      rw [hdm] at h
      simp only [Option.some_bind] at h
      simp only [Option.map_some', Option.some_bind, alookup_aupdateF_self, h, Option.map_none']
  · rw [updateComp_lookup_other d k c (by tauto)]
    exact h

theorem add_elim {e e' : EsM} {sc : Component} (h : e.add sc = some e') :
    e.keyExists sc.name = false ∧
    (alookup e.componentModelingDict sc.modelingClass).isSome = true ∧
    e' = { e with componentModelingDict :=
      (aupdateF sc.modelingClass
        (fun dom => { dom with componentsDict := (sc.name, sc) :: dom.componentsDict })
        e.componentModelingDict) } := by
  unfold EsM.add at h
  split at h
  · cases h
  · rename_i hke
    split at h
    · rename_i hcl
      cases h
      exact ⟨by simpa using hke, hcl, rfl⟩
    · cases h

theorem add_locations {e e' : EsM} {sc : Component} (h : e.add sc = some e') :
    e'.locations = e.locations := by
  rw [(add_elim h).2.2]

theorem add_domKeys {e e' : EsM} {sc : Component} (h : e.add sc = some e') :
    domKeys e' = domKeys e := by
  rw [(add_elim h).2.2]
  exact map_fst_aupdateF _ _ _

theorem add_tableOf {e e' : EsM} {sc : Component} (h : e.add sc = some e') (d : String) :
    e'.tableOf d = e.tableOf d := by
  rw [(add_elim h).2.2]
  unfold EsM.tableOf
  by_cases hd : d = sc.modelingClass
  · subst hd
    rw [alookup_aupdateF_self, Option.map_map]
    rfl
  · rw [alookup_aupdateF_ne _ _ hd]

theorem add_lookup_self {e e' : EsM} {sc : Component} (h : e.add sc = some e') :
    e'.lookupComp sc.modelingClass sc.name = some sc := by
  obtain ⟨-, hcl, he⟩ := add_elim h
  subst he
  unfold EsM.lookupComp
  rw [Option.isSome_iff_exists] at hcl
  obtain ⟨dom, hdom⟩ := hcl
  simp [alookup_aupdateF_self, hdom, alookup]

theorem add_lookup_preserved {e e' : EsM} {sc : Component} (h : e.add sc = some e')
    {d k : String} {c₀ : Component} (hc : e.lookupComp d k = some c₀) :
    e'.lookupComp d k = some c₀ := by
  obtain ⟨hke, -, he⟩ := add_elim h
  have hkn : k ≠ sc.name := by
    intro hk
    rw [hk] at hc
    rw [keyExists_false_lookup hke d] at hc
    cases hc
  subst he
  rw [lookupComp_def] at hc
  rw [lookupComp_def]
  dsimp only
  by_cases hd : d = sc.modelingClass
  · rw [hd] at hc ⊢
    rw [alookup_aupdateF_self]
    cases hdm : alookup e.componentModelingDict sc.modelingClass with
    | none => rw [hdm] at hc; cases hc
    | some dom =>
      rw [hdm] at hc
      simp only [Option.some_bind] at hc
      simp only [Option.map_some', Option.some_bind, alookup]
      rw [if_neg (fun hh => hkn hh.symm)]
      exact hc
  · rw [alookup_aupdateF_ne _ _ hd]
    exact hc

theorem add_lookup_none {e e' : EsM} {sc : Component} (h : e.add sc = some e')
    {d k : String} (hc : e.lookupComp d k = none) (hk : k ≠ sc.name) :
    e'.lookupComp d k = none := by
  obtain ⟨-, -, he⟩ := add_elim h
  subst he
  rw [lookupComp_def] at hc
  rw [lookupComp_def]
  dsimp only
  by_cases hd : d = sc.modelingClass
  · rw [hd] at hc ⊢
    rw [alookup_aupdateF_self]
    cases hdm : alookup e.componentModelingDict sc.modelingClass with
    | none => rfl
    | some dom =>
      rw [hdm] at hc
      simp only [Option.some_bind] at hc
      simp only [Option.map_some', Option.some_bind, alookup]
      rw [if_neg (fun hh => hk hh.symm)]
      exact hc
  · rw [alookup_aupdateF_ne _ _ hd]
    exact hc

/-! ## stockUpdate and mkStockComp field lemmas -/

theorem stockUpdate_name (c : Component) (n : Int) (locs : List Loc) :
    (stockUpdate c n locs).name = c.name := by
  unfold stockUpdate
  split <;> rfl

theorem stockUpdate_technicalLifetime (c : Component) (n : Int) (locs : List Loc) :
    (stockUpdate c n locs).technicalLifetime = c.technicalLifetime := by
  unfold stockUpdate
  split <;> rfl

theorem stockUpdate_modelingClass (c : Component) (n : Int) (locs : List Loc) :
    (stockUpdate c n locs).modelingClass = c.modelingClass := by
  unfold stockUpdate
  split <;> rfl

theorem stockUpdate_lifetime (c : Component) (n : Int) (locs : List Loc) :
    (stockUpdate c n locs).lifetime = c.lifetime.subScalar n := by
  unfold stockUpdate
  split <;> rfl

theorem stockUpdate_expired (c : Component) (n : Int) (locs : List Loc)
    (h : (c.lifetime.subScalar n).anyLE0 = true) :
    (stockUpdate c n locs).capacityFix = some (zeroSeries locs) ∧
    (stockUpdate c n locs).capacityMax = some (zeroSeries locs) ∧
    (stockUpdate c n locs).capacityMin = some (zeroSeries locs) ∧
    (stockUpdate c n locs).sharedPotentialID = none := by
  unfold stockUpdate
  rw [if_pos h]
  exact ⟨rfl, rfl, rfl, rfl⟩

theorem mkStockComp_name (c : Component) (sn : String) (n : Int) (v : ValEntry) :
    (mkStockComp c sn n v).name = sn := by
  unfold mkStockComp
  split
  · split <;> rfl
  · rfl

theorem mkStockComp_modelingClass (c : Component) (sn : String) (n : Int) (v : ValEntry) :
    (mkStockComp c sn n v).modelingClass = c.modelingClass := by
  unfold mkStockComp
  split
  · split <;> rfl
  · rfl

theorem mkStockComp_oneDim (c : Component) (sn : String) (n : Int) (s : Series)
    (h : c.capacityFix = none) :
    mkStockComp c sn n (ValEntry.oneDim s) =
      { c with name := sn, lifetime := c.technicalLifetime.subScalar n, capacityFix := some s } := by
  unfold mkStockComp
  rw [if_pos (by simp [h])]

theorem mkStockComp_lifetime (c : Component) (sn : String) (n : Int) (v : ValEntry) :
    (mkStockComp c sn n v).lifetime = c.technicalLifetime.subScalar n := by
  unfold mkStockComp
  split
  · split <;> rfl
  · rfl

theorem mkStockComp_technicalLifetime (c : Component) (sn : String) (n : Int) (v : ValEntry) :
    (mkStockComp c sn n v).technicalLifetime = c.technicalLifetime := by
  unfold mkStockComp
  split
  · split <;> rfl
  · rfl

theorem mkStockComp_capacityMax (c : Component) (sn : String) (n : Int) (v : ValEntry) :
    (mkStockComp c sn n v).capacityMax = c.capacityMax := by
  unfold mkStockComp
  split
  · split <;> rfl
  · rfl

theorem mkStockComp_capacityMin (c : Component) (sn : String) (n : Int) (v : ValEntry) :
    (mkStockComp c sn n v).capacityMin = c.capacityMin := by
  unfold mkStockComp
  split
  · split <;> rfl
  · rfl

theorem mkStockComp_sharedPotentialID (c : Component) (sn : String) (n : Int) (v : ValEntry) :
    (mkStockComp c sn n v).sharedPotentialID = c.sharedPotentialID := by
  unfold mkStockComp
  split
  · split <;> rfl
  · rfl

theorem mkStockComp_capacityFix_oneDim (c : Component) (sn : String) (n : Int) (s : Series)
    (h : c.capacityFix = none) :
    (mkStockComp c sn n (ValEntry.oneDim s)).capacityFix = some s := by
  rw [mkStockComp_oneDim c sn n s h]

/-! ## processComp step characterization -/

theorem processComp_elim {y n : Int} {mdl : String} {tbl : List (String × ValEntry)}
    {comp : String} {e e' : EsM} (h : processComp y n mdl tbl comp e = some e') :
    ∃ c, e.lookupComp mdl comp = some c ∧
      ((strContains c.name "stock" = false ∧ (c.technicalLifetime.subScalar n).anyLE0 = true ∧
          e' = e) ∨
       (strContains c.name "stock" = false ∧ (c.technicalLifetime.subScalar n).anyLE0 = false ∧
          ∃ v, alookup tbl comp = some v ∧
            e.add (mkStockComp c (comp ++ "_stock_" ++ toString y) n v) = some e') ∨
       (strContains c.name "stock" = true ∧
          e' = e.updateComp mdl comp (stockUpdate c n e.locations))) := by
  unfold processComp at h
  cases hc : e.lookupComp mdl comp with
  | none => rw [hc] at h; cases h
  | some c =>
    rw [hc] at h
    simp only at h
    refine ⟨c, rfl, ?_⟩
    by_cases hs : strContains c.name "stock" = false
    · rw [if_pos hs] at h
      by_cases ha : (c.technicalLifetime.subScalar n).anyLE0 = true
      · rw [if_pos ha] at h
        cases h
        exact Or.inl ⟨hs, ha, rfl⟩
      · rw [if_neg ha] at h
        cases hv : alookup tbl comp with
        | none => rw [hv] at h; cases h
        | some v =>
          rw [hv] at h
          simp only at h
          exact Or.inr (Or.inl ⟨hs, by simpa using ha, v, rfl, h⟩)
    · rw [if_neg hs] at h
      cases h
      exact Or.inr (Or.inr ⟨by simpa using hs, rfl⟩)

theorem processComp_stock {y n : Int} {mdl : String} {tbl : List (String × ValEntry)}
    {comp : String} {e : EsM} {c : Component} (hc : e.lookupComp mdl comp = some c)
    (hs : strContains c.name "stock" = true) :
    processComp y n mdl tbl comp e =
      some (e.updateComp mdl comp (stockUpdate c n e.locations)) := by
  simp only [processComp, hc]
  rw [if_neg (by simp [hs])]

theorem processComp_skip {y n : Int} {mdl : String} {tbl : List (String × ValEntry)}
    {comp : String} {e : EsM} {c : Component} (hc : e.lookupComp mdl comp = some c)
    (hs : strContains c.name "stock" = false)
    (ha : (c.technicalLifetime.subScalar n).anyLE0 = true) :
    processComp y n mdl tbl comp e = some e := by
  simp only [processComp, hc]
  rw [if_pos hs, if_pos ha]

theorem processComp_addStep {y n : Int} {mdl : String} {tbl : List (String × ValEntry)}
    {comp : String} {e : EsM} {c : Component} {v : ValEntry}
    (hc : e.lookupComp mdl comp = some c) (hs : strContains c.name "stock" = false)
    (ha : (c.technicalLifetime.subScalar n).anyLE0 = false)
    (hv : alookup tbl comp = some v) :
    processComp y n mdl tbl comp e =
      e.add (mkStockComp c (comp ++ "_stock_" ++ toString y) n v) := by
  simp only [processComp, hc]
  rw [if_pos hs, if_neg (by simp [ha]), hv]

theorem pc_locations {y n : Int} {mdl : String} {tbl : List (String × ValEntry)}
    {comp : String} {e e' : EsM} (h : processComp y n mdl tbl comp e = some e') :
    e'.locations = e.locations := by
  obtain ⟨c, hc, hcase⟩ := processComp_elim h
  rcases hcase with ⟨-, -, rfl⟩ | ⟨-, -, v, -, hadd⟩ | ⟨-, rfl⟩
  · rfl
  · exact add_locations hadd
  · rfl

theorem pc_domKeys {y n : Int} {mdl : String} {tbl : List (String × ValEntry)}
    {comp : String} {e e' : EsM} (h : processComp y n mdl tbl comp e = some e') :
    domKeys e' = domKeys e := by
  obtain ⟨c, hc, hcase⟩ := processComp_elim h
  rcases hcase with ⟨-, -, rfl⟩ | ⟨-, -, v, -, hadd⟩ | ⟨-, rfl⟩
  · rfl
  · exact add_domKeys hadd
  · exact updateComp_domKeys _ _ _ _

theorem pc_tableOf {y n : Int} {mdl : String} {tbl : List (String × ValEntry)}
    {comp : String} {e e' : EsM} (h : processComp y n mdl tbl comp e = some e') (d : String) :
    e'.tableOf d = e.tableOf d := by
  obtain ⟨c, hc, hcase⟩ := processComp_elim h
  rcases hcase with ⟨-, -, rfl⟩ | ⟨-, -, v, -, hadd⟩ | ⟨-, rfl⟩
  · rfl
  · exact add_tableOf hadd d
  · exact updateComp_tableOf _ _ _ _ d

theorem pc_entry {y n : Int} {mdl : String} {tbl : List (String × ValEntry)}
    {comp : String} {e e' : EsM} (h : processComp y n mdl tbl comp e = some e')
    {d k : String} {c₀ : Component} (hk : e.lookupComp d k = some c₀) :
    e'.lookupComp d k = some c₀ ∨
      (d = mdl ∧ k = comp ∧ strContains c₀.name "stock" = true ∧
        e'.lookupComp d k = some (stockUpdate c₀ n e.locations)) := by
  obtain ⟨c, hc, hcase⟩ := processComp_elim h
  rcases hcase with ⟨-, -, rfl⟩ | ⟨-, -, v, -, hadd⟩ | ⟨hs, rfl⟩
  · exact Or.inl hk
  · exact Or.inl (add_lookup_preserved hadd hk)
  · by_cases hdk : d = mdl ∧ k = comp
    · rcases hdk with ⟨hd, hkk⟩
      subst hd; subst hkk
      have hcc : c₀ = c := by
        rw [hk] at hc
        exact Option.some.inj hc
      subst hcc
      exact Or.inr ⟨rfl, rfl, hs, updateComp_lookup_self _ hk⟩
    · left
      rw [updateComp_lookup_other mdl comp _ (by tauto)]
      exact hk

theorem pc_none {y n : Int} {mdl : String} {tbl : List (String × ValEntry)}
    {comp : String} {e e' : EsM} (h : processComp y n mdl tbl comp e = some e')
    {d k : String} (hk : e.lookupComp d k = none) :
    e'.lookupComp d k = none ∨ k = comp ++ "_stock_" ++ toString y := by
  obtain ⟨c, hc, hcase⟩ := processComp_elim h
  rcases hcase with ⟨-, -, rfl⟩ | ⟨-, -, v, -, hadd⟩ | ⟨-, rfl⟩
  · exact Or.inl hk
  · by_cases hkn : k = comp ++ "_stock_" ++ toString y
    · exact Or.inr hkn
    · left
      refine add_lookup_none hadd hk ?_
      rw [mkStockComp_name]
      exact hkn
  · exact Or.inl (updateComp_lookup_none _ _ _ hk)

theorem pc_fields {y n : Int} {mdl : String} {tbl : List (String × ValEntry)}
    {comp : String} {e e' : EsM} (h : processComp y n mdl tbl comp e = some e')
    {d k : String} {c₀ : Component} (hk : e.lookupComp d k = some c₀) :
    ∃ c₁, e'.lookupComp d k = some c₁ ∧ c₁.name = c₀.name ∧
      c₁.technicalLifetime = c₀.technicalLifetime ∧ c₁.modelingClass = c₀.modelingClass ∧
      (c₁.lifetime = c₀.lifetime ∨ c₁.lifetime = c₀.lifetime.subScalar n) := by
  rcases pc_entry h hk with h1 | ⟨-, -, -, h1⟩
  · exact ⟨c₀, h1, rfl, rfl, rfl, Or.inl rfl⟩
  · exact ⟨_, h1, stockUpdate_name _ _ _, stockUpdate_technicalLifetime _ _ _,
      stockUpdate_modelingClass _ _ _, Or.inr (stockUpdate_lifetime _ _ _)⟩

/-! ## Fold decomposition -/

theorem tableOf_eq {e : EsM} {d : String} {dom : CompModel}
    (h : alookup e.componentModelingDict d = some dom) :
    e.tableOf d = some dom.optimalCapacityValues := by
  unfold EsM.tableOf
  rw [h]
  rfl

theorem tableOf_elim {e : EsM} {d : String} {X : Option (List (String × ValEntry))}
    (h : e.tableOf d = some X) :
    ∃ dom, alookup e.componentModelingDict d = some dom ∧ dom.optimalCapacityValues = X := by
  unfold EsM.tableOf at h
  cases hd : alookup e.componentModelingDict d with
  | none => rw [hd] at h; cases h
  | some dom =>
    rw [hd] at h
    exact ⟨dom, rfl, Option.some.inj h⟩

theorem processComps_cons_elim {y n : Int} {mdl : String} {tbl : List (String × ValEntry)}
    {K : String} {ks : List String} {e e' : EsM}
    (h : processComps y n mdl tbl (K :: ks) e = some e') :
    ∃ e₁, processComp y n mdl tbl K e = some e₁ ∧ processComps y n mdl tbl ks e₁ = some e' := by
  unfold processComps at h
  cases hstep : processComp y n mdl tbl K e with
  | none => rw [hstep] at h; cases h
  | some e₁ =>
    rw [hstep] at h
    exact ⟨e₁, rfl, by simpa using h⟩

theorem processComps_append_elim {y n : Int} {mdl : String} {tbl : List (String × ValEntry)}
    {l₁ l₂ : List String} {e e' : EsM}
    (h : processComps y n mdl tbl (l₁ ++ l₂) e = some e') :
    ∃ e₁, processComps y n mdl tbl l₁ e = some e₁ ∧ processComps y n mdl tbl l₂ e₁ = some e' := by
  induction l₁ generalizing e with
  | nil => exact ⟨e, rfl, h⟩
  | cons K ks ih =>
    rw [List.cons_append] at h
    obtain ⟨e₁, h1, h2⟩ := processComps_cons_elim h
    obtain ⟨e₂, h3, h4⟩ := ih h2
    refine ⟨e₂, ?_, h4⟩
    unfold processComps
    rw [h1]
    simpa using h3

theorem processDomain_elim {y n : Int} {mdl : String} {e e' : EsM}
    (h : processDomain y n mdl e = some e') :
    ∃ dom, alookup e.componentModelingDict mdl = some dom ∧
      ((dom.optimalCapacityValues = none ∧ e' = e) ∨
       (∃ tbl, dom.optimalCapacityValues = some tbl ∧
          processComps y n mdl tbl (uniqueKeys tbl) e = some e')) := by
  unfold processDomain at h
  cases hd : alookup e.componentModelingDict mdl with
  | none => rw [hd] at h; cases h
  | some dom =>
    rw [hd] at h
    simp only at h
    refine ⟨dom, rfl, ?_⟩
    cases ht : dom.optimalCapacityValues with
    | none =>
      rw [ht] at h
      simp only at h
      exact Or.inl ⟨rfl, (Option.some.inj h).symm⟩
    | some tbl =>
      rw [ht] at h
      simp only at h
      exact Or.inr ⟨tbl, rfl, h⟩

theorem processDomains_cons_elim {y n : Int} {M : String} {ds : List String} {e e' : EsM}
    (h : processDomains y n (M :: ds) e = some e') :
    ∃ e₁, processDomain y n M e = some e₁ ∧ processDomains y n ds e₁ = some e' := by
  unfold processDomains at h
  cases hstep : processDomain y n M e with
  | none => rw [hstep] at h; cases h
  | some e₁ =>
    rw [hstep] at h
    exact ⟨e₁, rfl, by simpa using h⟩

theorem processDomains_append_elim {y n : Int} {l₁ l₂ : List String} {e e' : EsM}
    (h : processDomains y n (l₁ ++ l₂) e = some e') :
    ∃ e₁, processDomains y n l₁ e = some e₁ ∧ processDomains y n l₂ e₁ = some e' := by
  induction l₁ generalizing e with
  | nil => exact ⟨e, rfl, h⟩
  | cons M ms ih =>
    rw [List.cons_append] at h
    obtain ⟨e₁, h1, h2⟩ := processDomains_cons_elim h
    obtain ⟨e₂, h3, h4⟩ := ih h2
    refine ⟨e₂, ?_, h4⟩
    unfold processDomains
    rw [h1]
    simpa using h3

/-! ## Invariants of the inner fold -/

theorem comps_locations {y n : Int} {mdl : String} {tbl : List (String × ValEntry)}
    {ks : List String} {e e' : EsM} (h : processComps y n mdl tbl ks e = some e') :
    e'.locations = e.locations := by
  induction ks generalizing e with
  | nil => cases h; rfl
  | cons K ks ih =>
    obtain ⟨e₁, h1, h2⟩ := processComps_cons_elim h
    rw [ih h2, pc_locations h1]

theorem comps_domKeys {y n : Int} {mdl : String} {tbl : List (String × ValEntry)}
    {ks : List String} {e e' : EsM} (h : processComps y n mdl tbl ks e = some e') :
    domKeys e' = domKeys e := by
  induction ks generalizing e with
  | nil => cases h; rfl
  | cons K ks ih =>
    obtain ⟨e₁, h1, h2⟩ := processComps_cons_elim h
    rw [ih h2, pc_domKeys h1]

theorem comps_tableOf {y n : Int} {mdl : String} {tbl : List (String × ValEntry)}
    {ks : List String} {e e' : EsM} (h : processComps y n mdl tbl ks e = some e') (d : String) :
    e'.tableOf d = e.tableOf d := by
  induction ks generalizing e with
  | nil => cases h; rfl
  | cons K ks ih =>
    obtain ⟨e₁, h1, h2⟩ := processComps_cons_elim h
    rw [ih h2, pc_tableOf h1]

theorem comps_nonstock {y n : Int} {mdl : String} {tbl : List (String × ValEntry)}
    {ks : List String} {e e' : EsM} (h : processComps y n mdl tbl ks e = some e')
    {d k : String} {c₀ : Component} (hk : e.lookupComp d k = some c₀)
    (hs : strContains c₀.name "stock" = false) : e'.lookupComp d k = some c₀ := by
  induction ks generalizing e with
  | nil => cases h; exact hk
  | cons K ks ih =>
    obtain ⟨e₁, h1, h2⟩ := processComps_cons_elim h
    rcases pc_entry h1 hk with h3 | ⟨-, -, h3, -⟩
    · exact ih h2 h3
    · rw [hs] at h3
      cases h3

theorem comps_frozen {y n : Int} {mdl : String} {tbl : List (String × ValEntry)}
    {ks : List String} {e e' : EsM} (h : processComps y n mdl tbl ks e = some e')
    {d k : String} {c₀ : Component} (hk : e.lookupComp d k = some c₀)
    (hcond : d = mdl → k ∉ ks) : e'.lookupComp d k = some c₀ := by
  induction ks generalizing e with
  | nil => cases h; exact hk
  | cons K ks ih =>
    obtain ⟨e₁, h1, h2⟩ := processComps_cons_elim h
    rcases pc_entry h1 hk with h3 | ⟨hd, hkk, -, -⟩
    · refine ih h2 h3 (fun hdm => ?_)
      intro hmem
      exact hcond hdm (List.mem_cons_of_mem _ hmem)
    · exact absurd (hkk ▸ List.mem_cons_self K ks) (hcond hd)

theorem comps_descent {y n : Int} {mdl : String} {tbl : List (String × ValEntry)}
    {ks : List String} {e e' : EsM} (h : processComps y n mdl tbl ks e = some e')
    (hn : 0 ≤ n) {d k : String} {c₀ : Component} (hk : e.lookupComp d k = some c₀) :
    ∃ c₁, e'.lookupComp d k = some c₁ ∧ Series.leB c₁.lifetime c₀.lifetime = true := by
  induction ks generalizing e c₀ with
  | nil => cases h; exact ⟨c₀, hk, leB_refl _⟩
  | cons K ks ih =>
    obtain ⟨e₁, h1, h2⟩ := processComps_cons_elim h
    rcases pc_entry h1 hk with h3 | ⟨-, -, -, h3⟩
    · exact ih h2 h3
    · obtain ⟨c₁, h4, h5⟩ := ih h2 h3
      refine ⟨c₁, h4, leB_trans h5 ?_⟩
      rw [stockUpdate_lifetime]
      exact leB_subScalar hn

theorem comps_fields {y n : Int} {mdl : String} {tbl : List (String × ValEntry)}
    {ks : List String} {e e' : EsM} (h : processComps y n mdl tbl ks e = some e')
    {d k : String} {c₀ : Component} (hk : e.lookupComp d k = some c₀) :
    ∃ c₁, e'.lookupComp d k = some c₁ ∧ c₁.name = c₀.name ∧
      c₁.technicalLifetime = c₀.technicalLifetime ∧ c₁.modelingClass = c₀.modelingClass := by
  induction ks generalizing e c₀ with
  | nil => cases h; exact ⟨c₀, hk, rfl, rfl, rfl⟩
  | cons K ks ih =>
    obtain ⟨e₁, h1, h2⟩ := processComps_cons_elim h
    obtain ⟨c₁, h3, hn1, ht1, hm1, -⟩ := pc_fields h1 hk
    obtain ⟨c₂, h4, hn2, ht2, hm2⟩ := ih h2 h3
    exact ⟨c₂, h4, hn2.trans hn1, ht2.trans ht1, hm2.trans hm1⟩

theorem comps_stock_exact {y n : Int} {mdl : String} {tbl : List (String × ValEntry)}
    {ks : List String} {e e' : EsM} (h : processComps y n mdl tbl ks e = some e')
    (hnodup : ks.Nodup) {comp : String} (hmem : comp ∈ ks) {c : Component}
    (hc : e.lookupComp mdl comp = some c) (hs : strContains c.name "stock" = true) :
    e'.lookupComp mdl comp = some (stockUpdate c n e.locations) := by
  induction ks generalizing e with
  | nil => cases hmem
  | cons K ks ih =>
    obtain ⟨e₁, h1, h2⟩ := processComps_cons_elim h
    by_cases hK : comp = K
    · subst hK
      rw [processComp_stock hc hs] at h1
      have he₁ := Option.some.inj h1
      have hlook : e₁.lookupComp mdl comp = some (stockUpdate c n e.locations) := by
        rw [← he₁]
        exact updateComp_lookup_self _ hc
      refine comps_frozen h2 hlook (fun _ => ?_)
      exact (List.nodup_cons.mp hnodup).1
    · have hmem' : comp ∈ ks := by
        rcases List.mem_cons.mp hmem with h' | h'
        · exact absurd h' hK
        · exact h'
      rcases pc_entry h1 hc with h3 | ⟨-, hkk, -, -⟩
      · rw [← pc_locations h1]
        exact ih h2 (List.nodup_cons.mp hnodup).2 hmem' h3
      · exact absurd hkk hK

theorem comps_noNewKey {y n : Int} {mdl : String} {tbl : List (String × ValEntry)}
    {ks : List String} {e e' : EsM} (h : processComps y n mdl tbl ks e = some e')
    {targetK : String} (habs : ∀ d₀, e.lookupComp d₀ targetK = none)
    (hH : ∀ x' ∈ ks, x' ++ "_stock_" ++ toString y = targetK →
      ∃ c₀, e.lookupComp mdl x' = some c₀ ∧
        (strContains c₀.name "stock" = true ∨
          (c₀.technicalLifetime.subScalar n).anyLE0 = true)) :
    ∀ d₀, e'.lookupComp d₀ targetK = none := by
  induction ks generalizing e with
  | nil => cases h; exact habs
  | cons K ks ih =>
    obtain ⟨e₁, h1, h2⟩ := processComps_cons_elim h
    have habs₁ : ∀ d₀, e₁.lookupComp d₀ targetK = none := by
      intro d₀
      obtain ⟨c, hc, hcase⟩ := processComp_elim h1
      rcases hcase with ⟨-, -, rfl⟩ | ⟨hsF, haF, v, -, hadd⟩ | ⟨-, rfl⟩
      · exact habs d₀
      · by_cases hkn : K ++ "_stock_" ++ toString y = targetK
        · exfalso
          obtain ⟨c₀, hc₀, hdis⟩ := hH K (List.mem_cons_self _ _) hkn
          rw [hc] at hc₀
          have hcc : c = c₀ := Option.some.inj hc₀
          rcases hdis with hdis | hdis
          · rw [← hcc, hsF] at hdis; cases hdis
          · rw [← hcc, haF] at hdis; cases hdis
        · refine add_lookup_none hadd (habs d₀) ?_
          rw [mkStockComp_name]
          exact fun hh => hkn hh.symm
      · exact updateComp_lookup_none _ _ _ (habs d₀)
    refine ih h2 habs₁ ?_
    intro x' hx' hkx
    obtain ⟨c₀, hc₀, hdis⟩ := hH x' (List.mem_cons_of_mem _ hx') hkx
    obtain ⟨c₁, h3, hn1, ht1, -⟩ := pc_fields h1 hc₀
    refine ⟨c₁, h3, ?_⟩
    rcases hdis with hdis | hdis
    · left; rw [hn1]; exact hdis
    · right; rw [ht1]; exact hdis

theorem comps_add_presence {y n : Int} {mdl : String} {tbl : List (String × ValEntry)}
    {ks : List String} {e e' : EsM} (h : processComps y n mdl tbl ks e = some e')
    {comp : String} (hmem : comp ∈ ks) {c : Component} {v : ValEntry}
    (hc : e.lookupComp mdl comp = some c) (hs : strContains c.name "stock" = false)
    (ha : (c.technicalLifetime.subScalar n).anyLE0 = false)
    (hv : alookup tbl comp = some v)
    (hsn : (comp ++ "_stock_" ++ toString y) ∉ ks) :
    e'.lookupComp c.modelingClass (comp ++ "_stock_" ++ toString y) =
      some (mkStockComp c (comp ++ "_stock_" ++ toString y) n v) := by
  induction ks generalizing e with
  | nil => cases hmem
  | cons K ks ih =>
    obtain ⟨e₁, h1, h2⟩ := processComps_cons_elim h
    by_cases hK : comp = K
    · subst hK
      rw [processComp_addStep hc hs ha hv] at h1
      have hself := add_lookup_self h1
      rw [mkStockComp_name, mkStockComp_modelingClass] at hself
      refine comps_frozen h2 hself (fun _ => ?_)
      intro hmem'
      exact hsn (List.mem_cons_of_mem _ hmem')
    · have hmem' : comp ∈ ks := by
        rcases List.mem_cons.mp hmem with h' | h'
        · exact absurd h' hK
        · exact h'
      rcases pc_entry h1 hc with h3 | ⟨-, hkk, -, -⟩
      · refine ih h2 hmem' h3 ?_
        intro hmem''
        exact hsn (List.mem_cons_of_mem _ hmem'')
      · exact absurd hkk hK

/-! ## Per-domain step lemmas -/

theorem pd_locations {y n : Int} {M : String} {e e₁ : EsM}
    (h : processDomain y n M e = some e₁) : e₁.locations = e.locations := by
  obtain ⟨dom, -, hcase⟩ := processDomain_elim h
  rcases hcase with ⟨-, rfl⟩ | ⟨tbl, -, hcomps⟩
  · rfl
  · exact comps_locations hcomps

theorem pd_domKeys {y n : Int} {M : String} {e e₁ : EsM}
    (h : processDomain y n M e = some e₁) : domKeys e₁ = domKeys e := by
  obtain ⟨dom, -, hcase⟩ := processDomain_elim h
  rcases hcase with ⟨-, rfl⟩ | ⟨tbl, -, hcomps⟩
  · rfl
  · exact comps_domKeys hcomps

theorem pd_tableOf {y n : Int} {M : String} {e e₁ : EsM}
    (h : processDomain y n M e = some e₁) (d : String) : e₁.tableOf d = e.tableOf d := by
  obtain ⟨dom, -, hcase⟩ := processDomain_elim h
  rcases hcase with ⟨-, rfl⟩ | ⟨tbl, -, hcomps⟩
  · rfl
  · exact comps_tableOf hcomps d

theorem pd_nonstock {y n : Int} {M : String} {e e₁ : EsM}
    (h : processDomain y n M e = some e₁) {d k : String} {c₀ : Component}
    (hk : e.lookupComp d k = some c₀) (hs : strContains c₀.name "stock" = false) :
    e₁.lookupComp d k = some c₀ := by
  obtain ⟨dom, -, hcase⟩ := processDomain_elim h
  rcases hcase with ⟨-, rfl⟩ | ⟨tbl, -, hcomps⟩
  · exact hk
  · exact comps_nonstock hcomps hk hs

theorem pd_frozen {y n : Int} {M : String} {e e₁ : EsM}
    (h : processDomain y n M e = some e₁) {d k : String} {c₀ : Component}
    (hk : e.lookupComp d k = some c₀)
    (hcond : M = d → ∀ tbl₀, e.tableOf d = some (some tbl₀) → k ∉ uniqueKeys tbl₀) :
    e₁.lookupComp d k = some c₀ := by
  obtain ⟨dom, hdom, hcase⟩ := processDomain_elim h
  rcases hcase with ⟨-, rfl⟩ | ⟨tbl, htbl, hcomps⟩
  · exact hk
  · refine comps_frozen hcomps hk (fun hd => ?_)
    refine hcond hd.symm tbl ?_
    rw [hd, tableOf_eq hdom, htbl]

theorem pd_descent {y n : Int} {M : String} {e e₁ : EsM}
    (h : processDomain y n M e = some e₁) (hn : 0 ≤ n) {d k : String} {c₀ : Component}
    (hk : e.lookupComp d k = some c₀) :
    ∃ c₁, e₁.lookupComp d k = some c₁ ∧ Series.leB c₁.lifetime c₀.lifetime = true := by
  obtain ⟨dom, -, hcase⟩ := processDomain_elim h
  rcases hcase with ⟨-, rfl⟩ | ⟨tbl, -, hcomps⟩
  · exact ⟨c₀, hk, leB_refl _⟩
  · exact comps_descent hcomps hn hk

theorem pd_fields {y n : Int} {M : String} {e e₁ : EsM}
    (h : processDomain y n M e = some e₁) {d k : String} {c₀ : Component}
    (hk : e.lookupComp d k = some c₀) :
    ∃ c₁, e₁.lookupComp d k = some c₁ ∧ c₁.name = c₀.name ∧
      c₁.technicalLifetime = c₀.technicalLifetime ∧ c₁.modelingClass = c₀.modelingClass := by
  obtain ⟨dom, -, hcase⟩ := processDomain_elim h
  rcases hcase with ⟨-, rfl⟩ | ⟨tbl, -, hcomps⟩
  · exact ⟨c₀, hk, rfl, rfl, rfl⟩
  · exact comps_fields hcomps hk

theorem pd_noNewKey {y n : Int} {M : String} {e e₁ : EsM}
    (h : processDomain y n M e = some e₁) {targetK : String}
    (habs : ∀ d₀, e.lookupComp d₀ targetK = none)
    (hH : ∀ tbl₀, e.tableOf M = some (some tbl₀) → ∀ x' ∈ uniqueKeys tbl₀,
      x' ++ "_stock_" ++ toString y = targetK →
      ∃ c₀, e.lookupComp M x' = some c₀ ∧
        (strContains c₀.name "stock" = true ∨
          (c₀.technicalLifetime.subScalar n).anyLE0 = true)) :
    ∀ d₀, e₁.lookupComp d₀ targetK = none := by
  obtain ⟨dom, hdom, hcase⟩ := processDomain_elim h
  rcases hcase with ⟨-, rfl⟩ | ⟨tbl, htbl, hcomps⟩
  · exact habs
  · refine comps_noNewKey hcomps habs ?_
    refine hH tbl ?_
    rw [tableOf_eq hdom, htbl]

/-! ## Invariants of the outer fold -/

theorem doms_locations {y n : Int} {ds : List String} {e e' : EsM}
    (h : processDomains y n ds e = some e') : e'.locations = e.locations := by
  induction ds generalizing e with
  | nil => cases h; rfl
  | cons M ms ih =>
    obtain ⟨e₁, h1, h2⟩ := processDomains_cons_elim h
    rw [ih h2, pd_locations h1]

theorem doms_tableOf {y n : Int} {ds : List String} {e e' : EsM}
    (h : processDomains y n ds e = some e') (d : String) : e'.tableOf d = e.tableOf d := by
  induction ds generalizing e with
  | nil => cases h; rfl
  | cons M ms ih =>
    obtain ⟨e₁, h1, h2⟩ := processDomains_cons_elim h
    rw [ih h2, pd_tableOf h1]

theorem doms_nonstock {y n : Int} {ds : List String} {e e' : EsM}
    (h : processDomains y n ds e = some e') {d k : String} {c₀ : Component}
    (hk : e.lookupComp d k = some c₀) (hs : strContains c₀.name "stock" = false) :
    e'.lookupComp d k = some c₀ := by
  induction ds generalizing e with
  | nil => cases h; exact hk
  | cons M ms ih =>
    obtain ⟨e₁, h1, h2⟩ := processDomains_cons_elim h
    exact ih h2 (pd_nonstock h1 hk hs)

theorem doms_frozen {y n : Int} {ds : List String} {e e' : EsM}
    (h : processDomains y n ds e = some e') {d k : String} {c₀ : Component}
    (hk : e.lookupComp d k = some c₀)
    (hcond : ∀ tbl₀, e.tableOf d = some (some tbl₀) → k ∉ uniqueKeys tbl₀) :
    e'.lookupComp d k = some c₀ := by
  induction ds generalizing e with
  | nil => cases h; exact hk
  | cons M ms ih =>
    obtain ⟨e₁, h1, h2⟩ := processDomains_cons_elim h
    refine ih h2 (pd_frozen h1 hk (fun _ => hcond)) ?_
    intro tbl₀ htbl₀
    refine hcond tbl₀ ?_
    rw [← pd_tableOf h1 d]
    exact htbl₀

theorem doms_frozen_notmem {y n : Int} {ds : List String} {e e' : EsM}
    (h : processDomains y n ds e = some e') {d k : String} {c₀ : Component}
    (hk : e.lookupComp d k = some c₀) (hd : d ∉ ds) : e'.lookupComp d k = some c₀ := by
  induction ds generalizing e with
  | nil => cases h; exact hk
  | cons M ms ih =>
    obtain ⟨e₁, h1, h2⟩ := processDomains_cons_elim h
    have hdM : M ≠ d := fun hMd => hd (hMd ▸ List.mem_cons_self _ _)
    refine ih h2 (pd_frozen h1 hk (fun hMd => absurd hMd hdM)) ?_
    intro hmem
    exact hd (List.mem_cons_of_mem _ hmem)

theorem doms_descent {y n : Int} {ds : List String} {e e' : EsM}
    (h : processDomains y n ds e = some e') (hn : 0 ≤ n) {d k : String} {c₀ : Component}
    (hk : e.lookupComp d k = some c₀) :
    ∃ c₁, e'.lookupComp d k = some c₁ ∧ Series.leB c₁.lifetime c₀.lifetime = true := by
  induction ds generalizing e c₀ with
  | nil => cases h; exact ⟨c₀, hk, leB_refl _⟩
  | cons M ms ih =>
    obtain ⟨e₁, h1, h2⟩ := processDomains_cons_elim h
    obtain ⟨c₁, h3, h4⟩ := pd_descent h1 hn hk
    obtain ⟨c₂, h5, h6⟩ := ih h2 h3
    exact ⟨c₂, h5, leB_trans h6 h4⟩

theorem doms_fields {y n : Int} {ds : List String} {e e' : EsM}
    (h : processDomains y n ds e = some e') {d k : String} {c₀ : Component}
    (hk : e.lookupComp d k = some c₀) :
    ∃ c₁, e'.lookupComp d k = some c₁ ∧ c₁.name = c₀.name ∧
      c₁.technicalLifetime = c₀.technicalLifetime ∧ c₁.modelingClass = c₀.modelingClass := by
  induction ds generalizing e c₀ with
  | nil => cases h; exact ⟨c₀, hk, rfl, rfl, rfl⟩
  | cons M ms ih =>
    obtain ⟨e₁, h1, h2⟩ := processDomains_cons_elim h
    obtain ⟨c₁, h3, hn1, ht1, hm1⟩ := pd_fields h1 hk
    obtain ⟨c₂, h4, hn2, ht2, hm2⟩ := ih h2 h3
    exact ⟨c₂, h4, hn2.trans hn1, ht2.trans ht1, hm2.trans hm1⟩

theorem doms_stock_exact {y n : Int} {ds : List String} {e e' : EsM}
    (h : processDomains y n ds e = some e') (hnodup : ds.Nodup) {mdl : String}
    (hmem : mdl ∈ ds) {tbl : List (String × ValEntry)}
    (htbl : e.tableOf mdl = some (some tbl)) {comp : String} (hkmem : comp ∈ uniqueKeys tbl)
    {c : Component} (hc : e.lookupComp mdl comp = some c)
    (hs : strContains c.name "stock" = true) :
    e'.lookupComp mdl comp = some (stockUpdate c n e.locations) := by
  induction ds generalizing e with
  | nil => cases hmem
  | cons M ms ih =>
    obtain ⟨e₁, h1, h2⟩ := processDomains_cons_elim h
    by_cases hM : M = mdl
    · subst hM
      obtain ⟨dom, hdom, hcase⟩ := processDomain_elim h1
      have hopt : dom.optimalCapacityValues = some tbl := by
        have h5 := tableOf_eq hdom
        rw [htbl] at h5
        exact Option.some.inj h5.symm
      rcases hcase with ⟨hnone, -⟩ | ⟨tbl', htbl', hcomps⟩
      · rw [hopt] at hnone; cases hnone
      · have htt : tbl' = tbl := by
          rw [hopt] at htbl'
          exact Option.some.inj htbl'.symm
        rw [htt] at hcomps
        have hstep := comps_stock_exact hcomps (nodup_uniqueKeys tbl) hkmem hc hs
        exact doms_frozen_notmem h2 hstep (List.nodup_cons.mp hnodup).1
    · have hMne : M = mdl → False := hM
      have h3 : e₁.lookupComp mdl comp = some c := pd_frozen h1 hc (fun hMd => absurd hMd hM)
      have htbl₁ : e₁.tableOf mdl = some (some tbl) := by
        rw [pd_tableOf h1]
        exact htbl
      have hmem' : mdl ∈ ms := by
        rcases List.mem_cons.mp hmem with h' | h'
        · exact absurd h'.symm hM
        · exact h'
      have := ih h2 (List.nodup_cons.mp hnodup).2 hmem' htbl₁ h3
      rw [pd_locations h1] at this
      exact this

theorem doms_add_presence {y n : Int} {ds : List String} {e e' : EsM}
    (h : processDomains y n ds e = some e') (hnodup : ds.Nodup) {mdl : String}
    (hmem : mdl ∈ ds) {tbl : List (String × ValEntry)}
    (htbl : e.tableOf mdl = some (some tbl)) {comp : String} (hkmem : comp ∈ uniqueKeys tbl)
    {c : Component} {v : ValEntry} (hc : e.lookupComp mdl comp = some c)
    (hs : strContains c.name "stock" = false)
    (ha : (c.technicalLifetime.subScalar n).anyLE0 = false)
    (hv : alookup tbl comp = some v)
    (hnotbl : ∀ d₀ tbl₀, e.tableOf d₀ = some (some tbl₀) →
      (comp ++ "_stock_" ++ toString y) ∉ uniqueKeys tbl₀) :
    e'.lookupComp c.modelingClass (comp ++ "_stock_" ++ toString y) =
      some (mkStockComp c (comp ++ "_stock_" ++ toString y) n v) := by
  induction ds generalizing e with
  | nil => cases hmem
  | cons M ms ih =>
    obtain ⟨e₁, h1, h2⟩ := processDomains_cons_elim h
    by_cases hM : M = mdl
    · subst hM
      obtain ⟨dom, hdom, hcase⟩ := processDomain_elim h1
      have hopt : dom.optimalCapacityValues = some tbl := by
        have h5 := tableOf_eq hdom
        rw [htbl] at h5
        exact Option.some.inj h5.symm
      rcases hcase with ⟨hnone, -⟩ | ⟨tbl', htbl', hcomps⟩
      · rw [hopt] at hnone; cases hnone
      · have htt : tbl' = tbl := by
          rw [hopt] at htbl'
          exact Option.some.inj htbl'.symm
        rw [htt] at hcomps
        have hstep := comps_add_presence hcomps hkmem hc hs ha hv (hnotbl _ tbl htbl)
        refine doms_frozen h2 hstep ?_
        intro tbl₀ htbl₀
        refine hnotbl c.modelingClass tbl₀ ?_
        rw [← pd_tableOf h1 c.modelingClass]
        exact htbl₀
    · have h3 : e₁.lookupComp mdl comp = some c := pd_frozen h1 hc (fun hMd => absurd hMd hM)
      have htbl₁ : e₁.tableOf mdl = some (some tbl) := by
        rw [pd_tableOf h1]
        exact htbl
      have hmem' : mdl ∈ ms := by
        rcases List.mem_cons.mp hmem with h' | h'
        · exact absurd h'.symm hM
        · exact h'
      refine ih h2 (List.nodup_cons.mp hnodup).2 hmem' htbl₁ h3 ?_
      intro d₀ tbl₀ htbl₀
      refine hnotbl d₀ tbl₀ ?_
      rw [← pd_tableOf h1 d₀]
      exact htbl₀

theorem doms_noNewKey {y n : Int} {ds : List String} {e e' : EsM}
    (h : processDomains y n ds e = some e') {targetK : String}
    (habs : ∀ d₀, e.lookupComp d₀ targetK = none)
    (hH : ∀ d₀ tbl₀, e.tableOf d₀ = some (some tbl₀) → ∀ x' ∈ uniqueKeys tbl₀,
      x' ++ "_stock_" ++ toString y = targetK →
      ∃ c₀, e.lookupComp d₀ x' = some c₀ ∧
        (strContains c₀.name "stock" = true ∨
          (c₀.technicalLifetime.subScalar n).anyLE0 = true)) :
    ∀ d₀, e'.lookupComp d₀ targetK = none := by
  induction ds generalizing e with
  | nil => cases h; exact habs
  | cons M ms ih =>
    obtain ⟨e₁, h1, h2⟩ := processDomains_cons_elim h
    have habs₁ := pd_noNewKey h1 habs (fun tbl₀ ht => hH M tbl₀ ht)
    refine ih h2 habs₁ ?_
    intro d₀ tbl₀ htbl₀ x' hx' hkx
    rw [pd_tableOf h1 d₀] at htbl₀
    obtain ⟨c₀, hc₀, hdis⟩ := hH d₀ tbl₀ htbl₀ x' hx' hkx
    obtain ⟨c₁, h3, hn1, ht1, -⟩ := pd_fields h1 hc₀
    refine ⟨c₁, h3, ?_⟩
    rcases hdis with hdis | hdis
    · left; rw [hn1]; exact hdis
    · right; rw [ht1]; exact hdis

/-! ## Class consistency (components live in the domain named by their class) -/

theorem classConsistent_iff {e : EsM} : classConsistent e = true ↔
    ∀ p ∈ e.componentModelingDict, ∀ q ∈ p.2.componentsDict, q.2.modelingClass = p.1 := by
  unfold classConsistent
  simp only [List.all_eq_true, beq_iff_eq]

theorem classConsistent_lookup {e : EsM} (h : classConsistent e = true) {d k : String}
    {c : Component} (hc : e.lookupComp d k = some c) : c.modelingClass = d := by
  rw [lookupComp_def] at hc
  cases hd : alookup e.componentModelingDict d with
  | none => rw [hd] at hc; cases hc
  | some dom =>
    rw [hd] at hc
    simp only [Option.some_bind] at hc
    exact classConsistent_iff.mp h _ (alookup_mem hd) _ (alookup_mem hc)

theorem updateComp_classConsistent {e : EsM} (h : classConsistent e = true) {d k : String}
    {c : Component} (hcl : c.modelingClass = d) :
    classConsistent (e.updateComp d k c) = true := by
  rw [classConsistent_iff] at h ⊢
  intro p hp q hq
  rw [updateComp_dict] at hp
  rcases mem_aupdateF hp with hp | ⟨dom, hdom, hpe⟩
  · exact h p hp q hq
  · subst hpe
    simp only at hq
    rcases mem_aupdateF hq with hq | ⟨c₀, hc₀, hqe⟩
    · exact h (d, dom) hdom q hq
    · subst hqe
      exact hcl

theorem add_classConsistent {e e' : EsM} {sc : Component} (h : e.add sc = some e')
    (hcc : classConsistent e = true) : classConsistent e' = true := by
  obtain ⟨-, -, he⟩ := add_elim h
  subst he
  rw [classConsistent_iff] at hcc ⊢
  intro p hp q hq
  simp only at hp
  rcases mem_aupdateF hp with hp | ⟨dom, hdom, hpe⟩
  · exact hcc p hp q hq
  · subst hpe
    simp only at hq
    rcases List.mem_cons.mp hq with hq | hq
    · rw [hq]
    · exact hcc (sc.modelingClass, dom) hdom q hq

theorem pc_c6 {y n : Int} {mdl : String} {tbl : List (String × ValEntry)} {comp : String}
    {e e' : EsM} (h : processComp y n mdl tbl comp e = some e')
    (hcc : classConsistent e = true) (hmdl : e.tableOf mdl = some (some tbl))
    {d : String} {dom : CompModel} (hd : alookup e.componentModelingDict d = some dom)
    (hnone : dom.optimalCapacityValues = none) :
    classConsistent e' = true ∧ alookup e'.componentModelingDict d = some dom := by
  have hdne : mdl ≠ d := by
    intro hmd
    rw [hmd, tableOf_eq hd, hnone] at hmdl
    cases hmdl
  obtain ⟨c, hc, hcase⟩ := processComp_elim h
  have hcls : c.modelingClass = mdl := classConsistent_lookup hcc hc
  rcases hcase with ⟨-, -, rfl⟩ | ⟨-, -, v, -, hadd⟩ | ⟨-, rfl⟩
  · exact ⟨hcc, hd⟩
  · constructor
    · exact add_classConsistent hadd hcc
    · obtain ⟨-, -, he⟩ := add_elim hadd
      subst he
      simp only
      rw [alookup_aupdateF_ne]
      · exact hd
      · rw [mkStockComp_modelingClass, hcls]
        exact fun hh => hdne hh.symm
  · constructor
    · exact updateComp_classConsistent hcc (by rw [stockUpdate_modelingClass, hcls])
    · rw [updateComp_dict, alookup_aupdateF_ne]
      · exact hd
      · exact fun hh => hdne hh.symm

theorem comps_c6 {y n : Int} {mdl : String} {tbl : List (String × ValEntry)}
    {ks : List String} {e e' : EsM} (h : processComps y n mdl tbl ks e = some e')
    (hcc : classConsistent e = true) (hmdl : e.tableOf mdl = some (some tbl))
    {d : String} {dom : CompModel} (hd : alookup e.componentModelingDict d = some dom)
    (hnone : dom.optimalCapacityValues = none) :
    classConsistent e' = true ∧ alookup e'.componentModelingDict d = some dom := by
  induction ks generalizing e with
  | nil => cases h; exact ⟨hcc, hd⟩
  | cons K ks ih =>
    obtain ⟨e₁, h1, h2⟩ := processComps_cons_elim h
    obtain ⟨hcc₁, hd₁⟩ := pc_c6 h1 hcc hmdl hd hnone
    refine ih h2 hcc₁ ?_ hd₁
    rw [pc_tableOf h1]
    exact hmdl

theorem pd_c6 {y n : Int} {M : String} {e e₁ : EsM}
    (h : processDomain y n M e = some e₁) (hcc : classConsistent e = true)
    {d : String} {dom : CompModel} (hd : alookup e.componentModelingDict d = some dom)
    (hnone : dom.optimalCapacityValues = none) :
    classConsistent e₁ = true ∧ alookup e₁.componentModelingDict d = some dom := by
  obtain ⟨domM, hdomM, hcase⟩ := processDomain_elim h
  rcases hcase with ⟨-, rfl⟩ | ⟨tbl, htbl, hcomps⟩
  · exact ⟨hcc, hd⟩
  · refine comps_c6 hcomps hcc ?_ hd hnone
    rw [tableOf_eq hdomM, htbl]

theorem doms_c6 {y n : Int} {ds : List String} {e e' : EsM}
    (h : processDomains y n ds e = some e') (hcc : classConsistent e = true)
    {d : String} {dom : CompModel} (hd : alookup e.componentModelingDict d = some dom)
    (hnone : dom.optimalCapacityValues = none) :
    classConsistent e' = true ∧ alookup e'.componentModelingDict d = some dom := by
  induction ds generalizing e with
  | nil => cases h; exact ⟨hcc, hd⟩
  | cons M ms ih =>
    obtain ⟨e₁, h1, h2⟩ := processDomains_cons_elim h
    obtain ⟨hcc₁, hd₁⟩ := pd_c6 h1 hcc hd hnone
    exact ih h2 hcc₁ hd₁

/-! ## Decidable hypothesis predicates, unfolded -/

theorem keyNotInAnyTable_spec {e : EsM} {k : String} (h : keyNotInAnyTable e k = true) :
    ∀ d₀ tbl₀, e.tableOf d₀ = some (some tbl₀) → k ∉ uniqueKeys tbl₀ := by
  intro d₀ tbl₀ ht
  obtain ⟨dom, hdom, hopt⟩ := tableOf_elim ht
  unfold keyNotInAnyTable at h
  rw [List.all_eq_true] at h
  have h2 := h _ (alookup_mem hdom)
  rw [hopt] at h2
  simpa using h2

theorem keyOnlyInTableOf_spec {e : EsM} {mdl k : String} (h : keyOnlyInTableOf e mdl k = true) :
    ∀ d₀ tbl₀, e.tableOf d₀ = some (some tbl₀) → k ∈ uniqueKeys tbl₀ → d₀ = mdl := by
  intro d₀ tbl₀ ht hk
  obtain ⟨dom, hdom, hopt⟩ := tableOf_elim ht
  unfold keyOnlyInTableOf at h
  rw [List.all_eq_true] at h
  have h2 := h _ (alookup_mem hdom)
  rw [hopt] at h2
  simp only [decide_eq_true_eq] at h2
  exact h2 hk

/-! ## Append and dict-update lemmas for the myopic loop -/

theorem alookup_append_left {β : Type} {l₁ l₂ : List (String × β)} {q : String} {v : β}
    (h : alookup l₁ q = some v) : alookup (l₁ ++ l₂) q = some v := by
  induction l₁ with
  | nil => cases h
  | cons p ps ih =>
    simp only [alookup, List.cons_append] at h ⊢
    split at h
    · rename_i hp
      rw [if_pos hp]
      exact h
    · rename_i hp
      rw [if_neg hp]
      exact ih h

theorem alookup_append_right {β : Type} {l₁ : List (String × β)} (l₂ : List (String × β))
    {q : String} (h : alookup l₁ q = none) : alookup (l₁ ++ l₂) q = alookup l₂ q := by
  induction l₁ with
  | nil => rfl
  | cons p ps ih =>
    simp only [alookup, List.cons_append] at h ⊢
    split at h
    · cases h
    · rename_i hp
      rw [if_neg hp]
      exact ih h

theorem dictUpdate_fresh {acc : List (String × EsM)} {k : String} (v : EsM)
    (h : alookup acc k = none) : dictUpdate k v acc = acc ++ [(k, v)] := by
  induction acc with
  | nil => rfl
  | cons p ps ih =>
    simp only [alookup] at h
    split at h
    · cases h
    · rename_i hp
      simp only [dictUpdate, List.cons_append]
      rw [if_neg hp]
      rw [ih h]

theorem alookup_append_single_ne {acc : List (String × EsM)} {k q : String} (v : EsM)
    (h : q ≠ k) : alookup (acc ++ [(k, v)]) q = alookup acc q := by
  cases ha : alookup acc q with
  | none =>
    rw [alookup_append_right _ ha]
    simp only [alookup]
    rw [if_neg (fun hh => h hh.symm)]
  | some w => exact alookup_append_left ha

theorem alookup_append_single_self {acc : List (String × EsM)} {k : String} (v : EsM)
    (h : alookup acc k = none) : alookup (acc ++ [(k, v)]) k = some v := by
  rw [alookup_append_right _ h]
  simp [alookup]

theorem genKeys_succ (S r : Int) (step m : Nat) :
    genKeys S r step (m + 1) =
      ("ESM_" ++ toString (S + (step : Int) * r)) :: genKeys S r (step + 1) m := by
  unfold genKeys
  rw [List.range_succ_eq_map, List.map_cons, List.map_map]
  refine congrArg₂ _ (by rw [Nat.add_zero]) ?_
  refine List.map_congr_left ?_
  intro j _
  simp only [Function.comp_apply, Nat.succ_eq_add_one]
  have : step + (j + 1) = step + 1 + j := by omega
  rw [this]

theorem chainState_zero (opt : Nat → String → EsM → EsM) (S r : Int) (step : Nat) (e : EsM) :
    chainState opt S r step e 0 = some e := rfl

theorem chainState_succ (opt : Nat → String → EsM → EsM) (S r : Int) (step : Nat) (e : EsM)
    (j : Nat) :
    chainState opt S r step e (j + 1) =
      (getStock (opt step ("log_" ++ toString (S + (step : Int) * r)) e)
          (S + (step : Int) * r) r).bind
        (fun e2 => chainState opt S r (step + 1) e2 j) := rfl

theorem myopicLoop_spec (opt : Nat → String → EsM → EsM) (S r : Int) :
    ∀ (m step : Nat) (lf : String) (e : EsM) (acc : List (String × EsM)) (tr : List String)
      (res : List (String × EsM)) (tr₂ : List String),
      myopicLoop opt S r m step lf e acc tr = some (res, tr₂) →
      (acc.map Prod.fst ++ genKeys S r step m).Nodup →
      res.map Prod.fst = acc.map Prod.fst ++ genKeys S r step m ∧
      (∀ q, q ∉ genKeys S r step m → alookup res q = alookup acc q) ∧
      (∀ j, j < m → ∃ st, chainState opt S r step e j = some st ∧
        alookup res ("ESM_" ++ toString (S + ((step + j : Nat) : Int) * r)) =
          some (deepcopy
            (opt (step + j) ("log_" ++ toString (S + ((step + j : Nat) : Int) * r)) st))) := by
  intro m
  induction m with
  | zero =>
    intro step lf e acc tr res tr₂ h _
    simp only [myopicLoop] at h
    obtain ⟨h1, -⟩ := Prod.mk.injEq _ _ _ _ ▸ Option.some.inj h
    subst h1
    refine ⟨by simp [genKeys], fun q _ => rfl, fun j hj => absurd hj (Nat.not_lt_zero j)⟩
  | succ m ih =>
    intro step lf e acc tr res tr₂ h hnodup
    simp only [myopicLoop] at h
    cases hgs : getStock (opt step ("log_" ++ toString (S + (step : Int) * r)) e)
        (S + (step : Int) * r) r with
    | none => rw [hgs] at h; cases h
    | some e2 =>
      rw [hgs] at h
      simp only [Option.some_bind] at h
      rw [genKeys_succ] at hnodup
      have hsplit := List.nodup_append.mp hnodup
      have hkey_acc : ("ESM_" ++ toString (S + (step : Int) * r)) ∉ acc.map Prod.fst := by
        intro hmem
        exact hsplit.2.2 hmem (List.mem_cons_self _ _)
      have hkey_tail : ("ESM_" ++ toString (S + (step : Int) * r)) ∉ genKeys S r (step + 1) m :=
        (List.nodup_cons.mp hsplit.2.1).1
      have hacc_none : alookup acc ("ESM_" ++ toString (S + (step : Int) * r)) = none :=
        alookup_none_of_not_mem hkey_acc
      have hacc1 : dictUpdate ("ESM_" ++ toString (S + (step : Int) * r))
          (deepcopy (opt step ("log_" ++ toString (S + (step : Int) * r)) e)) acc =
          acc ++ [("ESM_" ++ toString (S + (step : Int) * r),
            deepcopy (opt step ("log_" ++ toString (S + (step : Int) * r)) e))] :=
        dictUpdate_fresh _ hacc_none
      rw [hacc1] at h
      have hmapfst : (acc ++ [("ESM_" ++ toString (S + (step : Int) * r),
          deepcopy (opt step ("log_" ++ toString (S + (step : Int) * r)) e))]).map Prod.fst =
          acc.map Prod.fst ++ ["ESM_" ++ toString (S + (step : Int) * r)] := by
        rw [List.map_append]
        rfl
      have hnodup₁ : ((acc ++ [("ESM_" ++ toString (S + (step : Int) * r),
          deepcopy (opt step ("log_" ++ toString (S + (step : Int) * r)) e))]).map Prod.fst ++
            genKeys S r (step + 1) m).Nodup := by
        rw [hmapfst, List.append_assoc, List.singleton_append]
        exact hnodup
      obtain ⟨ha, hb, hc⟩ := ih (step + 1) ("log_" ++ toString (S + (step : Int) * r)) e2 _ _
        res tr₂ h hnodup₁
      refine ⟨?_, ?_, ?_⟩
      · rw [ha, hmapfst, genKeys_succ, List.append_assoc, List.singleton_append]
      · intro q hq
        rw [genKeys_succ, List.mem_cons] at hq
        push_neg at hq
        rw [hb q hq.2]
        exact alookup_append_single_ne _ hq.1
      · intro j hj
        cases j with
        | zero =>
          refine ⟨e, chainState_zero opt S r step e, ?_⟩
          have hq0 : ("ESM_" ++ toString (S + (step : Int) * r)) ∉ genKeys S r (step + 1) m :=
            hkey_tail
          rw [Nat.add_zero]
          rw [hb _ hq0]
          exact alookup_append_single_self _ hacc_none
        | succ j' =>
          obtain ⟨st, hchain, hlook⟩ := hc j' (by omega)
          refine ⟨st, ?_, ?_⟩
          · rw [chainState_succ, hgs]
            simpa using hchain
          · have harith : step + (j' + 1) = step + 1 + j' := by omega
            rw [harith]
            exact hlook

/-! ## Claim theorems -/

/-- C7: for every original (non-stock) component in the model — one whose name
does not carry the stock marker — a successful `getStock` run never mutates any
of its attributes: the component is looked up unchanged in the result, since
all modifications of the new-stock branch happen on a deep copy and the
original is only read. -/
theorem C7_originals_never_mutated {e e' : EsM} {y n : Int} {d k : String} {c : Component}
    (hc : e.lookupComp d k = some c) (horig : strContains c.name "stock" = false)
    (hres : getStock e y n = some e') : e'.lookupComp d k = some c := by
  unfold getStock at hres
  exact doms_nonstock hres hc horig

/-- C8: for every stock component and every successful `getStock` call with
`nbOfRepresentedYears ≥ 0`, the component's remaining lifetime after the call
is pointwise less than or equal to its lifetime before the call, whether or
not it appears in a result table. -/
theorem C8_stock_lifetime_monotone {e e' : EsM} {y n : Int} {d k : String} {c : Component}
    (hn : 0 ≤ n) (hc : e.lookupComp d k = some c)
    (hstock : strContains c.name "stock" = true)
    (hres : getStock e y n = some e') :
    ∃ c', e'.lookupComp d k = some c' ∧ Series.leB c'.lifetime c.lifetime = true := by
  unfold getStock at hres
  exact doms_descent hres hn hc

/-- C2: for every component carrying the stock marker that appears in its
domain's optimal-capacity result table, `getStock` decrements its lifetime in
place by `nbOfRepresentedYears`; if the resulting lifetime is `≤ 0` at any
location it sets `capacityFix`, `capacityMax` and `capacityMin` to the
all-zero series over the model's locations and clears `sharedPotentialID`,
while the component remains present in the model. -/
theorem C2_stock_decrement_and_retirement {e e' : EsM} {y n : Int} {mdl comp : String}
    {dom : CompModel} {tbl : List (String × ValEntry)} {c : Component}
    (hdom : alookup e.componentModelingDict mdl = some dom)
    (htbl : dom.optimalCapacityValues = some tbl)
    (hmem : comp ∈ tbl.map Prod.fst)
    (hc : alookup dom.componentsDict comp = some c)
    (hstock : strContains c.name "stock" = true)
    (hnodup : (domKeys e).Nodup)
    (hres : getStock e y n = some e') :
    ∃ c', e'.lookupComp mdl comp = some c' ∧
      c'.lifetime = c.lifetime.subScalar n ∧
      (c'.lifetime.anyLE0 = true →
        c'.capacityFix = some (zeroSeries e.locations) ∧
        c'.capacityMax = some (zeroSeries e.locations) ∧
        c'.capacityMin = some (zeroSeries e.locations) ∧
        c'.sharedPotentialID = none) := by
  unfold getStock at hres
  have hlook : e.lookupComp mdl comp = some c := by
    rw [lookupComp_def, hdom, Option.some_bind]
    exact hc
  have hstep := doms_stock_exact hres hnodup (mem_fst_of_alookup hdom)
    (by rw [tableOf_eq hdom, htbl]) (mem_uniqueKeys.mpr hmem) hlook hstock
  refine ⟨stockUpdate c n e.locations, hstep, stockUpdate_lifetime _ _ _, ?_⟩
  intro hexp
  rw [stockUpdate_lifetime] at hexp
  exact stockUpdate_expired c n e.locations hexp

/-- C6: a modeling domain whose optimal-capacity query returns the no-result
marker is skipped entirely by a successful `getStock` run: its whole entry
(components and stored result) is unchanged and no stock component is ever
registered into it. -/
theorem C6_no_result_domain_skipped {e e' : EsM} {y n : Int} {d : String} {dom : CompModel}
    (hcc : classConsistent e = true)
    (hd : alookup e.componentModelingDict d = some dom)
    (hnone : dom.optimalCapacityValues = none)
    (hres : getStock e y n = some e') :
    alookup e'.componentModelingDict d = some dom := by
  unfold getStock at hres
  exact (doms_c6 hres hcc hd hnone).2

/-- C1: every original component (no stock marker in its name) appearing in
its domain's result table, whose candidate lifetime
`technicalLifetime - nbOfRepresentedYears` is positive at every location,
gets a new stock component added to the model: a duplicate of the original
(same modeling class, technical lifetime, capacity bounds and shared
potential) renamed to `<name>_stock_<mileStoneYear>` with `lifetime` equal to
the candidate value — and, when the original's `capacityFix` was not already
set and the optimized values are single-dimensional, with `capacityFix` equal
to the optimized capacity values for that component. -/
theorem C1_new_stock_component_created {e e' : EsM} {y n : Int} {mdl comp : String}
    {dom : CompModel} {tbl : List (String × ValEntry)} {c : Component}
    (hdom : alookup e.componentModelingDict mdl = some dom)
    (htbl : dom.optimalCapacityValues = some tbl)
    (hmem : comp ∈ tbl.map Prod.fst)
    (hc : alookup dom.componentsDict comp = some c)
    (horig : strContains c.name "stock" = false)
    (hpos : (c.technicalLifetime.subScalar n).anyLE0 = false)
    (hnodup : (domKeys e).Nodup)
    (hnotbl : keyNotInAnyTable e (comp ++ "_stock_" ++ toString y) = true)
    (hres : getStock e y n = some e') :
    ∃ sc, e'.lookupComp c.modelingClass (comp ++ "_stock_" ++ toString y) = some sc ∧
      sc.name = comp ++ "_stock_" ++ toString y ∧
      sc.lifetime = c.technicalLifetime.subScalar n ∧
      sc.modelingClass = c.modelingClass ∧
      sc.technicalLifetime = c.technicalLifetime ∧
      sc.capacityMax = c.capacityMax ∧
      sc.capacityMin = c.capacityMin ∧
      sc.sharedPotentialID = c.sharedPotentialID ∧
      (∀ s : Series, c.capacityFix = none → alookup tbl comp = some (ValEntry.oneDim s) →
        sc.capacityFix = some s) := by
  unfold getStock at hres
  have hlook : e.lookupComp mdl comp = some c := by
    rw [lookupComp_def, hdom, Option.some_bind]
    exact hc
  obtain ⟨v, hv⟩ := Option.isSome_iff_exists.mp (isSome_alookup_of_mem_fst (l := tbl) hmem)
  have hstep := doms_add_presence hres hnodup (mem_fst_of_alookup hdom)
    (by rw [tableOf_eq hdom, htbl]) (mem_uniqueKeys.mpr hmem) hlook horig hpos hv
    (keyNotInAnyTable_spec hnotbl)
  refine ⟨mkStockComp c (comp ++ "_stock_" ++ toString y) n v, hstep,
    mkStockComp_name _ _ _ _, mkStockComp_lifetime _ _ _ _,
    mkStockComp_modelingClass _ _ _ _, mkStockComp_technicalLifetime _ _ _ _,
    mkStockComp_capacityMax _ _ _ _, mkStockComp_capacityMin _ _ _ _,
    mkStockComp_sharedPotentialID _ _ _ _, ?_⟩
  intro s hfix hvs
  rw [hv] at hvs
  have hvv : v = ValEntry.oneDim s := Option.some.inj hvs
  rw [hvv]
  exact mkStockComp_capacityFix_oneDim c _ n s hfix

/-- C9: any component whose name contains the substring `stock` anywhere —
for example an original component named `Feedstock` — is classified by
`getStock` as an existing stock component: when it appears in a result table
its lifetime is decremented in place, and no new stock duplicate
`<name>_stock_<mileStoneYear>` is ever created for it. -/
theorem C9_substring_marks_stock {e e' : EsM} {y n : Int} {mdl comp : String}
    {dom : CompModel} {tbl : List (String × ValEntry)} {c : Component}
    (hdom : alookup e.componentModelingDict mdl = some dom)
    (htbl : dom.optimalCapacityValues = some tbl)
    (hmem : comp ∈ tbl.map Prod.fst)
    (hc : alookup dom.componentsDict comp = some c)
    (hstock : strContains c.name "stock" = true)
    (hnodup : (domKeys e).Nodup)
    (hfresh : e.keyExists (comp ++ "_stock_" ++ toString y) = false)
    (honly : keyOnlyInTableOf e mdl comp = true)
    (hres : getStock e y n = some e') :
    (∃ c', e'.lookupComp mdl comp = some c' ∧ c'.lifetime = c.lifetime.subScalar n) ∧
    (∀ d₀, e'.lookupComp d₀ (comp ++ "_stock_" ++ toString y) = none) := by
  unfold getStock at hres
  have hlook : e.lookupComp mdl comp = some c := by
    rw [lookupComp_def, hdom, Option.some_bind]
    exact hc
  constructor
  · have hstep := doms_stock_exact hres hnodup (mem_fst_of_alookup hdom)
      (by rw [tableOf_eq hdom, htbl]) (mem_uniqueKeys.mpr hmem) hlook hstock
    exact ⟨stockUpdate c n e.locations, hstep, stockUpdate_lifetime _ _ _⟩
  · refine doms_noNewKey hres (keyExists_false_lookup hfresh) ?_
    intro d₀ tbl₀ htbl₀ x' hx' hkx
    have hxc : x' = comp := strAppend_right_cancel (strAppend_right_cancel hkx)
    subst hxc
    have hd₀ : d₀ = mdl := keyOnlyInTableOf_spec honly d₀ tbl₀ htbl₀ hx'
    subst hd₀
    exact ⟨c, hlook, Or.inl hstock⟩

/-- C3 (amended): for an original component appearing in its domain's result
table, `getStock` skips stock creation exactly when the candidate lifetime
`technicalLifetime - nbOfRepresentedYears` is `≤ 0` at at least one location;
a stock component is created exactly when the candidate lifetime is positive
at every location. -/
theorem C3_amended_skip_iff_any_location_expired {e e' : EsM} {y n : Int} {mdl comp : String}
    {dom : CompModel} {tbl : List (String × ValEntry)} {c : Component}
    (hdom : alookup e.componentModelingDict mdl = some dom)
    (htbl : dom.optimalCapacityValues = some tbl)
    (hmem : comp ∈ tbl.map Prod.fst)
    (hc : alookup dom.componentsDict comp = some c)
    (horig : strContains c.name "stock" = false)
    (hnodup : (domKeys e).Nodup)
    (hfresh : e.keyExists (comp ++ "_stock_" ++ toString y) = false)
    (hnotbl : keyNotInAnyTable e (comp ++ "_stock_" ++ toString y) = true)
    (honly : keyOnlyInTableOf e mdl comp = true)
    (hres : getStock e y n = some e') :
    (∃ d₀, (e'.lookupComp d₀ (comp ++ "_stock_" ++ toString y)).isSome = true) ↔
      (c.technicalLifetime.subScalar n).anyLE0 = false := by
  unfold getStock at hres
  have hlook : e.lookupComp mdl comp = some c := by
    rw [lookupComp_def, hdom, Option.some_bind]
    exact hc
  constructor
  · rintro ⟨d₀, hsome⟩
    by_contra hneg
    have hexp : (c.technicalLifetime.subScalar n).anyLE0 = true := by
      cases hvv : (c.technicalLifetime.subScalar n).anyLE0
      · exact absurd hvv hneg
      · rfl
    have habs := doms_noNewKey hres (keyExists_false_lookup hfresh) ?_ d₀
    · rw [habs] at hsome
      cases hsome
    · intro d₁ tbl₁ htbl₁ x' hx' hkx
      have hxc : x' = comp := strAppend_right_cancel (strAppend_right_cancel hkx)
      subst hxc
      have hd₁ : d₁ = mdl := keyOnlyInTableOf_spec honly d₁ tbl₁ htbl₁ hx'
      subst hd₁
      exact ⟨c, hlook, Or.inr hexp⟩
  · intro hpos
    obtain ⟨v, hval⟩ := Option.isSome_iff_exists.mp
      (isSome_alookup_of_mem_fst (l := tbl) hmem)
    have hstep := doms_add_presence hres hnodup (mem_fst_of_alookup hdom)
      (by rw [tableOf_eq hdom, htbl]) (mem_uniqueKeys.mpr hmem) hlook horig hpos hval
      (keyNotInAnyTable_spec hnotbl)
    exact ⟨c.modelingClass, by rw [hstep]; rfl⟩

/-- C5: whenever the Horizon Planner resolves a pair with `endYear` given, the
returned integers satisfy `startYear + nbOfSteps * nbOfRepresentedYears =
endYear` and `nbOfSteps ≥ 1`; and with `startYear = endYear = 2020` (fewer
than 2 total runs) it fails with a `ConfigurationError` for every choice of
the optional arguments. -/
theorem C5_horizon_planner_resolution :
    (∀ (S eYr s r : Int) (ns nr : Option Int),
        checkAndSetTimeHorizon S (some eYr) ns nr = Except.ok (s, r) →
        S + s * r = eYr ∧ 1 ≤ s) ∧
    (∀ ns nr : Option Int,
        ∃ m, checkAndSetTimeHorizon 2020 (some 2020) ns nr = Except.error m) := by
  constructor
  · intro S eYr s r ns nr h
    cases ns with
    | some s' =>
      cases nr with
      | some r' =>
        simp only [checkAndSetTimeHorizon] at h
        split at h
        · rename_i hcond
          injection h with h4
          rw [Prod.mk.injEq] at h4
          obtain ⟨h5, h6⟩ := h4
          subst h5; subst h6
          exact ⟨hcond.1, hcond.2.1⟩
        · cases h
      | none =>
        simp only [checkAndSetTimeHorizon] at h
        split at h
        · rename_i hcond
          injection h with h4
          rw [Prod.mk.injEq] at h4
          obtain ⟨h5, h6⟩ := h4
          subst h5; subst h6
          have hdvd : s' ∣ (eYr - S) := Int.dvd_of_emod_eq_zero hcond.2.1
          have hmul : s' * ((eYr - S) / s') = eYr - S := Int.mul_ediv_cancel' hdvd
          refine ⟨?_, hcond.1⟩
          rw [hmul]
          omega
        · cases h
    | none =>
      cases nr with
      | some r' =>
        simp only [checkAndSetTimeHorizon] at h
        split at h
        · rename_i hcond
          injection h with h4
          rw [Prod.mk.injEq] at h4
          obtain ⟨h5, h6⟩ := h4
          subst h5; subst h6
          have hdvd : r' ∣ (eYr - S) := Int.dvd_of_emod_eq_zero hcond.2.1
          have hmul : (eYr - S) / r' * r' = eYr - S := Int.ediv_mul_cancel hdvd
          refine ⟨?_, hcond.2.2⟩
          rw [hmul]
          omega
        · cases h
      | none =>
        simp only [checkAndSetTimeHorizon] at h
        cases h
  · intro ns nr
    cases ns with
    | some s =>
      cases nr with
      | some r =>
        have hcond : ¬((2020 : Int) + s * r = 2020 ∧ 1 ≤ s ∧ 1 ≤ r) := by
          rintro ⟨h1, h2, h3⟩
          have h4 : 0 < s * r := mul_pos (by omega) (by omega)
          omega
        exact ⟨_, by simp only [checkAndSetTimeHorizon]; rw [if_neg hcond]⟩
      | none =>
        have hcond : ¬(1 ≤ s ∧ ((2020 : Int) - 2020) % s = 0 ∧
            1 ≤ ((2020 : Int) - 2020) / s) := by
          rintro ⟨-, -, h3⟩
          rw [show ((2020 : Int) - 2020) = 0 from by norm_num, Int.zero_ediv] at h3
          exact absurd h3 (by norm_num)
        exact ⟨_, by simp only [checkAndSetTimeHorizon]; rw [if_neg hcond]⟩
    | none =>
      cases nr with
      | some r =>
        have hcond : ¬(1 ≤ r ∧ ((2020 : Int) - 2020) % r = 0 ∧
            1 ≤ ((2020 : Int) - 2020) / r) := by
          rintro ⟨-, -, h3⟩
          rw [show ((2020 : Int) - 2020) = 0 from by norm_num, Int.zero_ediv] at h3
          exact absurd h3 (by norm_num)
        exact ⟨_, by simp only [checkAndSetTimeHorizon]; rw [if_neg hcond]⟩
      | none => exact ⟨_, rfl⟩

theorem myopicLoop_lf_irrelevant (opt : Nat → String → EsM → EsM) (S r : Int)
    (m step : Nat) (lf₁ lf₂ : String) (e : EsM) (acc : List (String × EsM))
    (tr : List String) :
    myopicLoop opt S r m step lf₁ e acc tr = myopicLoop opt S r m step lf₂ e acc tr := by
  cases m <;> rfl

/-- C10: the `logFileName` argument of `optimizeMyopic` has no effect on
behaviour: for any two values of `logFileName` with all other inputs equal,
the campaign performs the same calls (identical log-file-name trace) and
returns the same result, because each step overwrites the variable with
`'log_' + str(mileStoneYear)` before calling `optimize`. -/
theorem C10_logFileName_no_effect (opt : Nat → String → EsM → EsM) (esM : EsM)
    (startYear : Int) (endYear nbOfSteps nbOfRepresentedYears : Option Int)
    (tg : Option (List Int)) (lf₁ lf₂ : String) :
    optimizeMyopic opt esM startYear endYear nbOfSteps nbOfRepresentedYears tg lf₁ =
      optimizeMyopic opt esM startYear endYear nbOfSteps nbOfRepresentedYears tg lf₂ := by
  unfold optimizeMyopic
  cases checkAndSetTimeHorizon startYear endYear nbOfSteps nbOfRepresentedYears with
  | error m => rfl
  | ok pr =>
    obtain ⟨s, r⟩ := pr
    cases checkSinkCompCO2toEnvironment esM tg with
    | error m => rfl
    | ok u =>
      cases checkCO2ReductionTargets tg s with
      | error m => rfl
      | ok u2 =>
        simp only
        rw [myopicLoop_lf_irrelevant opt startYear r (s.toNat + 1) 0 lf₁ lf₂ esM [] []]

/-- C4: every successful campaign whose horizon resolves to `nbOfSteps = n`
and `nbOfRepresentedYears = r` returns a mapping with exactly `n + 1` entries,
keyed `'ESM_' + str(startYear + k*r)` for `k = 0..n`, where entry `k` is a
deep-copied snapshot of the model solved at step `k` of the step chain (each
snapshot being an independent value taken before the stock roll mutates the
model further). -/
theorem C4_myopic_snapshots (opt : Nat → String → EsM → EsM) (esM : EsM) (S : Int)
    (eY ns nr : Option Int) (tg : Option (List Int)) (lf : String)
    {res : List (String × EsM)} {tr : List String} {n r : Int}
    (hok : optimizeMyopic opt esM S eY ns nr tg lf = Except.ok (res, tr))
    (hct : checkAndSetTimeHorizon S eY ns nr = Except.ok (n, r))
    (hnodup : (genKeys S r 0 (n.toNat + 1)).Nodup) :
    res.length = n.toNat + 1 ∧
    res.map Prod.fst = genKeys S r 0 (n.toNat + 1) ∧
    (∀ j, j < n.toNat + 1 → ∃ st, chainState opt S r 0 esM j = some st ∧
      alookup res ("ESM_" ++ toString (S + (j : Int) * r)) =
        some (deepcopy (opt j ("log_" ++ toString (S + (j : Int) * r)) st))) := by
  unfold optimizeMyopic at hok
  rw [hct] at hok
  simp only at hok
  cases hs : checkSinkCompCO2toEnvironment esM tg with
  | error m => rw [hs] at hok; cases hok
  | ok u =>
    rw [hs] at hok
    simp only at hok
    cases hco : checkCO2ReductionTargets tg n with
    | error m => rw [hco] at hok; cases hok
    | ok u2 =>
      rw [hco] at hok
      simp only at hok
      cases hloop : myopicLoop opt S r (n.toNat + 1) 0 lf esM [] [] with
      | none => rw [hloop] at hok; cases hok
      | some pr =>
        rw [hloop] at hok
        simp only at hok
        injection hok with hok2
        obtain ⟨res', tr'⟩ := pr
        rw [Prod.mk.injEq] at hok2
        obtain ⟨h1, h2⟩ := hok2
        subst h1; subst h2
        obtain ⟨ha, -, hcj⟩ := myopicLoop_spec opt S r (n.toNat + 1) 0 lf esM [] [] res' tr'
          hloop (by simpa using hnodup)
        refine ⟨?_, ?_, ?_⟩
        · have hlen := congrArg List.length ha
          simpa [genKeys] using hlen
        · simpa using ha
        · intro j hj
          obtain ⟨st, hst, hl⟩ := hcj j hj
          refine ⟨st, hst, ?_⟩
          simpa [Nat.zero_add] using hl

/-! ## Counterexample and witnesses -/

/-- C3 is false as stated: in `eC3` the candidate stock lifetime of the
original component `conv` is positive at location `L1` (15 - 10 = 5), yet a
successful `getStock` run creates no stock component at all — the model comes
back unchanged and no `conv_stock_2020` key exists in any domain — because
the candidate lifetime is `≤ 0` at `L2` and line 123 skips whenever any
location has expired. -/
theorem C3_counterexample :
    strContains cC3.name "stock" = false ∧
    "conv" ∈ tblC3.map Prod.fst ∧
    ("L1", (5 : Int)) ∈ cC3.technicalLifetime.subScalar 10 ∧ (0 : Int) < 5 ∧
    getStock eC3 2020 10 = some eC3 ∧
    domKeys eC3 = ["d1"] ∧
    (∀ d₀ ∈ domKeys eC3,
      eC3.lookupComp d₀ ("conv" ++ "_stock_" ++ toString (2020 : Int)) = none) :=
  ⟨by decide, by decide, by decide, by decide, rfl, rfl, by decide⟩

theorem C1_witness :
    alookup eW1.componentModelingDict "d1" = some domW1 ∧
    domW1.optimalCapacityValues = some tblW1 ∧
    "conv" ∈ tblW1.map Prod.fst ∧
    alookup domW1.componentsDict "conv" = some cW1 ∧
    strContains cW1.name "stock" = false ∧
    (cW1.technicalLifetime.subScalar 10).anyLE0 = false ∧
    (domKeys eW1).Nodup ∧
    keyNotInAnyTable eW1 ("conv" ++ "_stock_" ++ toString (2020 : Int)) = true ∧
    getStock eW1 2020 10 = some eW1x ∧
    (∃ sc, eW1x.lookupComp cW1.modelingClass ("conv" ++ "_stock_" ++ toString (2020 : Int)) =
        some sc ∧
      sc.name = "conv" ++ "_stock_" ++ toString (2020 : Int) ∧
      sc.lifetime = cW1.technicalLifetime.subScalar 10 ∧
      sc.modelingClass = cW1.modelingClass ∧
      sc.technicalLifetime = cW1.technicalLifetime ∧
      sc.capacityMax = cW1.capacityMax ∧
      sc.capacityMin = cW1.capacityMin ∧
      sc.sharedPotentialID = cW1.sharedPotentialID ∧
      (∀ s : Series, cW1.capacityFix = none → alookup tblW1 "conv" = some (ValEntry.oneDim s) →
        sc.capacityFix = some s)) :=
  ⟨rfl, rfl, by decide, rfl, by decide, by decide, by decide, by decide, rfl,
   @C1_new_stock_component_created eW1 eW1x 2020 10 "d1" "conv" domW1 tblW1 cW1
     rfl rfl (by decide) rfl (by decide) (by decide) (by decide) (by decide) rfl⟩

theorem C2_witness :
    alookup eW2.componentModelingDict "d1" = some domW2 ∧
    domW2.optimalCapacityValues = some tblW2 ∧
    "old_stock_2010" ∈ tblW2.map Prod.fst ∧
    alookup domW2.componentsDict "old_stock_2010" = some cW2 ∧
    strContains cW2.name "stock" = true ∧
    (domKeys eW2).Nodup ∧
    getStock eW2 2020 10 = some eW2x ∧
    (∃ c', eW2x.lookupComp "d1" "old_stock_2010" = some c' ∧
      c'.lifetime = cW2.lifetime.subScalar 10 ∧
      (c'.lifetime.anyLE0 = true →
        c'.capacityFix = some (zeroSeries eW2.locations) ∧
        c'.capacityMax = some (zeroSeries eW2.locations) ∧
        c'.capacityMin = some (zeroSeries eW2.locations) ∧
        c'.sharedPotentialID = none)) :=
  ⟨rfl, rfl, by decide, rfl, by decide, by decide, rfl,
   @C2_stock_decrement_and_retirement eW2 eW2x 2020 10 "d1" "old_stock_2010" domW2 tblW2 cW2
     rfl rfl (by decide) rfl (by decide) (by decide) rfl⟩

theorem C3_amended_witness :
    alookup eW1.componentModelingDict "d1" = some domW1 ∧
    domW1.optimalCapacityValues = some tblW1 ∧
    "conv" ∈ tblW1.map Prod.fst ∧
    alookup domW1.componentsDict "conv" = some cW1 ∧
    strContains cW1.name "stock" = false ∧
    (domKeys eW1).Nodup ∧
    eW1.keyExists ("conv" ++ "_stock_" ++ toString (2020 : Int)) = false ∧
    keyNotInAnyTable eW1 ("conv" ++ "_stock_" ++ toString (2020 : Int)) = true ∧
    keyOnlyInTableOf eW1 "d1" "conv" = true ∧
    getStock eW1 2020 10 = some eW1x ∧
    ((∃ d₀, (eW1x.lookupComp d₀ ("conv" ++ "_stock_" ++ toString (2020 : Int))).isSome = true) ↔
      (cW1.technicalLifetime.subScalar 10).anyLE0 = false) :=
  ⟨rfl, rfl, by decide, rfl, by decide, by decide, by decide, by decide, by decide, rfl,
   @C3_amended_skip_iff_any_location_expired eW1 eW1x 2020 10 "d1" "conv" domW1 tblW1 cW1
     rfl rfl (by decide) rfl (by decide) (by decide) (by decide) (by decide) (by decide) rfl⟩

theorem C4_witness :
    optimizeMyopic idOpt eW0 2020 (some 2040) (some 2) (some 10) none "x" =
      Except.ok ([("ESM_2020", eW0), ("ESM_2030", eW0), ("ESM_2040", eW0)],
        ["log_2020", "log_2030", "log_2040"]) ∧
    checkAndSetTimeHorizon 2020 (some 2040) (some 2) (some 10) = Except.ok (2, 10) ∧
    (genKeys 2020 10 0 ((2 : Int).toNat + 1)).Nodup ∧
    ([("ESM_2020", eW0), ("ESM_2030", eW0), ("ESM_2040", eW0)].length = (2 : Int).toNat + 1 ∧
     [("ESM_2020", eW0), ("ESM_2030", eW0), ("ESM_2040", eW0)].map Prod.fst =
       genKeys 2020 10 0 ((2 : Int).toNat + 1) ∧
     (∀ j, j < (2 : Int).toNat + 1 → ∃ st, chainState idOpt 2020 10 0 eW0 j = some st ∧
       alookup [("ESM_2020", eW0), ("ESM_2030", eW0), ("ESM_2040", eW0)]
           ("ESM_" ++ toString ((2020 : Int) + (j : Int) * 10)) =
         some (deepcopy (idOpt j ("log_" ++ toString ((2020 : Int) + (j : Int) * 10)) st)))) :=
  ⟨rfl, rfl, by decide,
   @C4_myopic_snapshots idOpt eW0 2020 (some 2040) (some 2) (some 10) none "x"
     [("ESM_2020", eW0), ("ESM_2030", eW0), ("ESM_2040", eW0)]
     ["log_2020", "log_2030", "log_2040"] 2 10 rfl rfl (by decide)⟩

theorem C5_witness :
    checkAndSetTimeHorizon 2020 (some 2040) (some 2) none = Except.ok (2, 10) ∧
    ((2020 : Int) + 2 * 10 = 2040 ∧ (1 : Int) ≤ 2) ∧
    (∃ m, checkAndSetTimeHorizon 2020 (some 2020) (some 1) (some 1) = Except.error m) :=
  ⟨rfl, C5_horizon_planner_resolution.1 2020 2040 2 10 (some 2) none rfl,
   C5_horizon_planner_resolution.2 (some 1) (some 1)⟩

theorem C6_witness :
    classConsistent eW4 = true ∧
    alookup eW4.componentModelingDict "d0" = some domW4 ∧
    domW4.optimalCapacityValues = none ∧
    getStock eW4 2020 10 = some eW4 ∧
    alookup eW4.componentModelingDict "d0" = some domW4 :=
  ⟨by decide, rfl, rfl, rfl,
   @C6_no_result_domain_skipped eW4 eW4 2020 10 "d0" domW4 (by decide) rfl rfl rfl⟩

theorem C7_witness :
    eW1.lookupComp "d1" "conv" = some cW1 ∧
    strContains cW1.name "stock" = false ∧
    getStock eW1 2020 10 = some eW1x ∧
    eW1x.lookupComp "d1" "conv" = some cW1 :=
  ⟨rfl, by decide, rfl,
   @C7_originals_never_mutated eW1 eW1x 2020 10 "d1" "conv" cW1 rfl (by decide) rfl⟩

theorem C8_witness :
    (0 : Int) ≤ 10 ∧
    eW2.lookupComp "d1" "old_stock_2010" = some cW2 ∧
    strContains cW2.name "stock" = true ∧
    getStock eW2 2020 10 = some eW2x ∧
    (∃ c', eW2x.lookupComp "d1" "old_stock_2010" = some c' ∧
      Series.leB c'.lifetime cW2.lifetime = true) :=
  ⟨by decide, rfl, by decide, rfl,
   @C8_stock_lifetime_monotone eW2 eW2x 2020 10 "d1" "old_stock_2010" cW2
     (by decide) rfl (by decide) rfl⟩

theorem C9_witness :
    alookup eW3.componentModelingDict "d1" = some domW3 ∧
    domW3.optimalCapacityValues = some tblW3 ∧
    "Feedstock" ∈ tblW3.map Prod.fst ∧
    alookup domW3.componentsDict "Feedstock" = some cW3 ∧
    strContains cW3.name "stock" = true ∧
    (domKeys eW3).Nodup ∧
    eW3.keyExists ("Feedstock" ++ "_stock_" ++ toString (2020 : Int)) = false ∧
    keyOnlyInTableOf eW3 "d1" "Feedstock" = true ∧
    getStock eW3 2020 10 = some eW3x ∧
    ((∃ c', eW3x.lookupComp "d1" "Feedstock" = some c' ∧
        c'.lifetime = cW3.lifetime.subScalar 10) ∧
      (∀ d₀, eW3x.lookupComp d₀ ("Feedstock" ++ "_stock_" ++ toString (2020 : Int)) = none)) :=
  ⟨rfl, rfl, by decide, rfl, by decide, by decide, by decide, by decide, rfl,
   @C9_substring_marks_stock eW3 eW3x 2020 10 "d1" "Feedstock" domW3 tblW3 cW3
     rfl rfl (by decide) rfl (by decide) (by decide) (by decide) (by decide) rfl⟩
